import Mathlib

/-!
A verification development for the `a1_notation` crate: a shallow embedding
of its data model (scalar coordinates, addresses, the five-variant
`RangeOrCell` reference type and the `A1` wrapper) together with its
geometric operations (containment, shifting, enumeration) and its string
conversion (parse and format), with theorems checking the crate's
documented properties against this embedding.

Machine integers: the crate uses `usize` (`type Index = usize`).  We model
indices as `Nat` and make the width explicit (`USIZE = 2 ^ 64`) exactly
where the source performs saturating or wrapping arithmetic.
-/

namespace A1Notation

/-- The modulus of `usize` on a 64-bit target. -/
def USIZE : Nat := 2 ^ 64

/-- `usize::saturating_add`: addition clamped at `usize::MAX = USIZE - 1`. -/
def satAdd (a b : Nat) : Nat := min (a + b) (USIZE - 1)

/-- `Column { absolute: bool, x: usize }` from `src/column/mod.rs`. -/
structure Column where
  absolute : Bool
  x : Nat
deriving DecidableEq, Repr

/-- `Row { absolute: bool, y: usize }` from `src/row/mod.rs`. -/
structure Row where
  absolute : Bool
  y : Nat
deriving DecidableEq, Repr

/-- `Address { column: Column, row: Row }` from `src/address/mod.rs`. -/
structure Address where
  column : Column
  row : Row
deriving DecidableEq, Repr

/-- `impl PartialEq for Column` (src/column/partial_eq.rs): compares `x` only. -/
def Column.rustEq (a b : Column) : Bool := a.x == b.x

/-- `impl PartialEq for Row` (src/row/mod.rs): compares `y` only. -/
def Row.rustEq (a b : Row) : Bool := a.y == b.y

/-- Derived `PartialEq` for `Address`: fieldwise, using the manual
`Column`/`Row` impls (which ignore the `absolute` flags). -/
def Address.rustEq (a b : Address) : Bool :=
  Column.rustEq a.column b.column && Row.rustEq a.row b.row

/-- `Column::new` (src/column/mod.rs): `absolute` defaults to `false`. -/
def Column.new (x : Nat) : Column := { absolute := false, x := x }

/-- `Row::new` (src/row/mod.rs). -/
def Row.new (y : Nat) : Row := { absolute := false, y := y }

/-- `Address::new(column_index, row_index)` (src/address/mod.rs). -/
def Address.new (cx ry : Nat) : Address := { column := Column.new cx, row := Row.new ry }

/-- `Column::is_between` (src/column/mod.rs): `self` lies inclusively
between `min a b` and `max a b`, comparing by `x` (the `Ord` impl). -/
def Column.is_between (self a b : Column) : Bool :=
  decide (min a.x b.x ≤ self.x) && decide (self.x ≤ max a.x b.x)

/-- `Row::is_between` (src/row/mod.rs). -/
def Row.is_between (self a b : Row) : Bool :=
  decide (min a.y b.y ≤ self.y) && decide (self.y ≤ max a.y b.y)

/-- `Address::origin_distance` (src/address/mod.rs): `column.x + row.y`.
The Rust `+` on `usize` can overflow (panic in debug builds); theorems that
quantify over addresses carry explicit `< USIZE` bounds on this sum. -/
def Address.origin_distance (self : Address) : Nat := self.column.x + self.row.y

/-- `Address::is_between` (src/address/mod.rs): picks a "top-left" and a
"bottom-right" corner by comparing the two corners' `origin_distance`, then
checks `self` componentwise between them (comparisons are on `x`/`y` via
the `Ord` impls). -/
def Address.is_between (self a b : Address) : Bool :=
  let a_dist := a.origin_distance
  let b_dist := b.origin_distance
  let top_left := if a_dist < b_dist then a else b
  let bottom_right := if a_dist < b_dist then b else a
  decide (top_left.column.x ≤ self.column.x) &&
    decide (top_left.row.y ≤ self.row.y) &&
    decide (self.column.x ≤ bottom_right.column.x) &&
    decide (self.row.y ≤ bottom_right.row.y)

/-- `Column::shift_left` (src/column/mod.rs):
`x = max(self.x.saturating_sub(columns), 0)`.  `Nat` subtraction is
exactly `usize::saturating_sub`. -/
def Column.shift_left (self : Column) (columns : Nat) : Column :=
  { self with x := max (self.x - columns) 0 }

/-- `Column::shift_right` (src/column/mod.rs): `x = self.x.saturating_add(columns)`. -/
def Column.shift_right (self : Column) (columns : Nat) : Column :=
  { self with x := satAdd self.x columns }

/-- `Column::with_x` (src/column/mod.rs). -/
def Column.with_x (self : Column) (x : Nat) : Column := { self with x := x }

/-- `Row::shift_down` (src/row/mod.rs): early-returns `self` when `rows == 0`,
otherwise `y = self.y.saturating_add(rows)`. -/
def Row.shift_down (self : Row) (rows : Nat) : Row :=
  if rows == 0 then self else { self with y := satAdd self.y rows }

/-- `Row::shift_up` (src/row/mod.rs): early-returns `self` when `rows == 0`,
otherwise `y = max(self.y.saturating_sub(rows), 0)`. -/
def Row.shift_up (self : Row) (rows : Nat) : Row :=
  if rows == 0 then self else { self with y := max (self.y - rows) 0 }

/-- `Row::with_y` (src/row/mod.rs). -/
def Row.with_y (self : Row) (y : Nat) : Row := { self with y := y }

/-- `Address::shift_down` (src/address/mod.rs). -/
def Address.shift_down (self : Address) (rows : Nat) : Address :=
  { self with row := self.row.shift_down rows }

/-- `Address::shift_left` (src/address/mod.rs). -/
def Address.shift_left (self : Address) (columns : Nat) : Address :=
  { self with column := self.column.shift_left columns }

/-- `Address::shift_right` (src/address/mod.rs). -/
def Address.shift_right (self : Address) (columns : Nat) : Address :=
  { self with column := self.column.shift_right columns }

/-- `Address::shift_up` (src/address/mod.rs). -/
def Address.shift_up (self : Address) (rows : Nat) : Address :=
  { self with row := self.row.shift_up rows }

/-- `Address::with_x` (src/address/mod.rs): `column = x.into()`, which
builds `Column { absolute: false, x }`. -/
def Address.with_x (self : Address) (x : Nat) : Address :=
  { self with column := Column.new x }

/-- `Address::with_y` (src/address/mod.rs). -/
def Address.with_y (self : Address) (y : Nat) : Address :=
  { self with row := Row.new y }

mutual
/-- The `RangeOrCell` enum (src/range_or_cell/mod.rs).  In each two-field
variant the first argument is the `from` field and the second the `to`
field (`from` is a Lean keyword).  `NonContiguous(Vec<Self>)` is modelled
with the mutually defined list type `ROCList` so that the operations below
stay structurally recursive. -/
inductive RangeOrCell where
  | Cell (a : Address)
  | ColumnRange (f t : Column)
  | NonContiguous (l : ROCList)
  | Range (f t : Address)
  | RowRange (f t : Row)

/-- `Vec<RangeOrCell>`, as a mutually defined list. -/
inductive ROCList where
  | nil
  | cons (hd : RangeOrCell) (tl : ROCList)
end

mutual
/-- Derived `PartialEq` for `RangeOrCell`: same variant, fieldwise equal
via the manual `Column`/`Row`/`Address` impls (absolute flags ignored). -/
def RangeOrCell.rustEq : RangeOrCell → RangeOrCell → Bool
  | .Cell a, .Cell b => Address.rustEq a b
  | .ColumnRange f t, .ColumnRange g u => Column.rustEq f g && Column.rustEq t u
  | .NonContiguous l, .NonContiguous m => ROCList.rustEq l m
  | .Range f t, .Range g u => Address.rustEq f g && Address.rustEq t u
  | .RowRange f t, .RowRange g u => Row.rustEq f g && Row.rustEq t u
  | _, _ => false

/-- `Vec<RangeOrCell>` equality: same length, elementwise. -/
def ROCList.rustEq : ROCList → ROCList → Bool
  | .nil, .nil => true
  | .cons a as, .cons b bs => RangeOrCell.rustEq a b && ROCList.rustEq as bs
  | _, _ => false
end

mutual
/-- `RangeOrCell::contains` (src/range_or_cell/mod.rs), the full pairwise
case analysis, flattened to two-argument patterns.  The `self` matches of
the source come first so the `(NonContiguous, NonContiguous)` pair lands
in the `NonContiguous`-self arm, exactly as in the Rust `match`.  Note
that every `X contains NonContiguous(o)` arm of the source computes
`o.iter().all(|oa| oa.contains(self))` — each member of `o` contains
`self` — which is what `allMembersContain` models. -/
def RangeOrCell.contains : RangeOrCell → RangeOrCell → Bool
  | .NonContiguous l, o => anyContains l o
  | .Cell a, .Cell b => Address.rustEq a b
  | .Cell a, .NonContiguous o => allMembersContain o (.Cell a)
  | .Cell _, _ => false
  | .ColumnRange f t, .ColumnRange g u => g.is_between f t && u.is_between f t
  | .ColumnRange f t, .Cell a => a.column.is_between f t
  | .ColumnRange f t, .NonContiguous o => allMembersContain o (.ColumnRange f t)
  | .ColumnRange f t, .Range g u => g.column.is_between f t && u.column.is_between f t
  | .ColumnRange _ _, .RowRange _ _ => false
  | .RowRange _ _, .ColumnRange _ _ => false
  | .RowRange f t, .Cell a => a.row.is_between f t
  | .RowRange f t, .RowRange g u => g.is_between f t && u.is_between f t
  | .RowRange f t, .NonContiguous o => allMembersContain o (.RowRange f t)
  | .RowRange f t, .Range g u => g.row.is_between f t && u.row.is_between f t
  | .Range _ _, .ColumnRange _ _ => false
  | .Range f t, .Cell a => a.is_between f t
  | .Range _ _, .RowRange _ _ => false
  | .Range f t, .NonContiguous o => allMembersContain o (.Range f t)
  | .Range f t, .Range g u => g.is_between f t && u.is_between f t
termination_by a b => sizeOf a + sizeOf b
decreasing_by all_goals (simp_wf; try omega)

/-- `o.iter().all(|oa| oa.contains(x))`: every member of the list contains `x`. -/
def allMembersContain : ROCList → RangeOrCell → Bool
  | .nil, _ => true
  | .cons h rest, x => RangeOrCell.contains h x && allMembersContain rest x
termination_by l x => sizeOf l + sizeOf x
decreasing_by all_goals (simp_wf; try omega)

/-- `range_or_cells.iter().any(|r| r.contains(other))`. -/
def anyContains : ROCList → RangeOrCell → Bool
  | .nil, _ => false
  | .cons h rest, o => RangeOrCell.contains h o || anyContains rest o
termination_by l o => sizeOf l + sizeOf o
decreasing_by all_goals (simp_wf; try omega)
end

mutual
/-- `RangeOrCell::shift_down` (src/range_or_cell/mod.rs).  `ColumnRange`
is returned unchanged. -/
def RangeOrCell.shift_down : RangeOrCell → Nat → RangeOrCell
  | .Cell a, rows => .Cell (a.shift_down rows)
  | .ColumnRange f t, _ => .ColumnRange f t
  | .NonContiguous l, rows => .NonContiguous (ROCList.shift_down l rows)
  | .Range f t, rows => .Range (f.shift_down rows) (t.shift_down rows)
  | .RowRange f t, rows => .RowRange (f.shift_down rows) (t.shift_down rows)

def ROCList.shift_down : ROCList → Nat → ROCList
  | .nil, _ => .nil
  | .cons h rest, rows => .cons (h.shift_down rows) (ROCList.shift_down rest rows)
end

mutual
/-- `RangeOrCell::shift_left` (src/range_or_cell/mod.rs).  `RowRange` is
returned unchanged. -/
def RangeOrCell.shift_left : RangeOrCell → Nat → RangeOrCell
  | .Cell a, columns => .Cell (a.shift_left columns)
  | .ColumnRange f t, columns => .ColumnRange (f.shift_left columns) (t.shift_left columns)
  | .NonContiguous l, columns => .NonContiguous (ROCList.shift_left l columns)
  | .Range f t, columns => .Range (f.shift_left columns) (t.shift_left columns)
  | .RowRange f t, _ => .RowRange f t

def ROCList.shift_left : ROCList → Nat → ROCList
  | .nil, _ => .nil
  | .cons h rest, columns => .cons (h.shift_left columns) (ROCList.shift_left rest columns)
end

mutual
/-- `RangeOrCell::shift_right` (src/range_or_cell/mod.rs). -/
def RangeOrCell.shift_right : RangeOrCell → Nat → RangeOrCell
  | .Cell a, columns => .Cell (a.shift_right columns)
  | .ColumnRange f t, columns => .ColumnRange (f.shift_right columns) (t.shift_right columns)
  | .NonContiguous l, columns => .NonContiguous (ROCList.shift_right l columns)
  | .Range f t, columns => .Range (f.shift_right columns) (t.shift_right columns)
  | .RowRange f t, _ => .RowRange f t

def ROCList.shift_right : ROCList → Nat → ROCList
  | .nil, _ => .nil
  | .cons h rest, columns => .cons (h.shift_right columns) (ROCList.shift_right rest columns)
end

mutual
/-- `RangeOrCell::shift_up` (src/range_or_cell/mod.rs). -/
def RangeOrCell.shift_up : RangeOrCell → Nat → RangeOrCell
  | .Cell a, rows => .Cell (a.shift_up rows)
  | .ColumnRange f t, _ => .ColumnRange f t
  | .NonContiguous l, rows => .NonContiguous (ROCList.shift_up l rows)
  | .Range f t, rows => .Range (f.shift_up rows) (t.shift_up rows)
  | .RowRange f t, rows => .RowRange (f.shift_up rows) (t.shift_up rows)

def ROCList.shift_up : ROCList → Nat → ROCList
  | .nil, _ => .nil
  | .cons h rest, rows => .cons (h.shift_up rows) (ROCList.shift_up rest rows)
end


/-! ### Claims about containment and shifting -/

/-- The rectangle-membership predicate of the specification: the cell `c`
lies within the per-axis min/max box spanned by corners `f` and `t`. -/
def inRectangle (f t c : Address) : Prop :=
  min f.column.x t.column.x ≤ c.column.x ∧ c.column.x ≤ max f.column.x t.column.x ∧
    min f.row.y t.row.y ≤ c.row.y ∧ c.row.y ≤ max f.row.y t.row.y

/-- Corners of a bounded `Range` are diagonally aligned: `f` is (weakly)
up-left of `t`, or (weakly) down-right of it. -/
def alignedCorners (f t : Address) : Prop :=
  (f.column.x ≤ t.column.x ∧ f.row.y ≤ t.row.y) ∨
    (t.column.x ≤ f.column.x ∧ t.row.y ≤ f.row.y)

/-- Claim C1: the claim says `X.contains(NonContiguous(list))` holds iff `X`
contains every member of the list.  The code instead tests whether every
member of the list contains `X` (`o.iter().all(|oa| oa.contains(self))`),
contradicting its own comments.  At the failing input
`X = ColumnRange(A:F)`, `list = [Cell B2]`: `X` contains `Cell B2`, yet
`X.contains(NonContiguous([Cell B2]))` evaluates to `false`. -/
theorem C1_contains_nonContiguous_direction_bug :
    RangeOrCell.contains (.ColumnRange (Column.new 0) (Column.new 5))
        (.NonContiguous (.cons (.Cell (Address.new 1 1)) .nil)) = false
      ∧ RangeOrCell.contains (.ColumnRange (Column.new 0) (Column.new 5))
          (.Cell (Address.new 1 1)) = true := by
  constructor <;>
    simp [RangeOrCell.contains, allMembersContain, Column.is_between,
      Address.new, Column.new, Row.new]

/-- Claim C2, counterexample: for the anti-diagonal corner pair
`from = A3 = (0,2)`, `to = C1 = (2,0)`, the cell `B2 = (1,1)` lies in the
per-axis min/max rectangle, yet `Range{from,to}.contains(Cell(B2))`
returns `false`, because `Address::is_between` picks its corners by
`origin_distance` (`column.x + row.y`), not per-axis. -/
theorem C2_counterexample :
    RangeOrCell.contains (.Range (Address.new 0 2) (Address.new 2 0))
        (.Cell (Address.new 1 1)) = false
      ∧ inRectangle (Address.new 0 2) (Address.new 2 0) (Address.new 1 1) := by
  constructor
  · simp [RangeOrCell.contains, Address.is_between, Address.origin_distance,
      Address.new, Column.new, Row.new]
  · simp [inRectangle, Address.new, Column.new, Row.new]

/-- Claim C2 (amended): for a bounded `Range` whose corners are diagonally
aligned (either corner order), `contains(Cell c)` holds iff `c` lies in the
per-axis min/max rectangle; for anti-diagonal corner pairs the code's
`origin_distance` corner selection does not compute rectangle membership.
The `< USIZE` bounds keep the modelled `origin_distance` sum inside
`usize` (in Rust that sum would otherwise overflow). -/
theorem C2_range_contains_cell_rectangle (f t c : Address)
    (halign : alignedCorners f t)
    (_hf : f.column.x + f.row.y < USIZE) (_ht : t.column.x + t.row.y < USIZE) :
    RangeOrCell.contains (.Range f t) (.Cell c) = true ↔ inRectangle f t c := by
  rcases halign with h | h <;>
    · simp only [RangeOrCell.contains, Address.is_between, Address.origin_distance,
        inRectangle, Bool.and_eq_true, decide_eq_true_eq]
      split <;> omega

/-- Witness for C2: the aligned range `A1:C3` contains `B2`. -/
theorem C2_range_contains_cell_rectangle_witness :
    RangeOrCell.contains (.Range (Address.new 0 0) (Address.new 2 2))
      (.Cell (Address.new 1 1)) = true :=
  (C2_range_contains_cell_rectangle (Address.new 0 0) (Address.new 2 2) (Address.new 1 1)
        (Or.inl (by simp [Address.new, Column.new, Row.new]))
        (by norm_num [Address.new, Column.new, Row.new, USIZE])
        (by norm_num [Address.new, Column.new, Row.new, USIZE])).mpr
    (by simp [inRectangle, Address.new, Column.new, Row.new])

/-- The domain on which the code's containment is actually reflexive:
every `Cell`, every `ColumnRange` and `RowRange`, and every bounded
`Range` with diagonally aligned corners (and `origin_distance` sums inside
`usize`).  `NonContiguous` is excluded: with two or more distinct members
no single member contains the whole union, so `r.contains(r)` fails. -/
def reflDomain : RangeOrCell → Prop
  | .Cell _ => True
  | .ColumnRange _ _ => True
  | .RowRange _ _ => True
  | .Range f t => alignedCorners f t ∧
      f.column.x + f.row.y < USIZE ∧ t.column.x + t.row.y < USIZE
  | .NonContiguous _ => False

/-- Claim C3, counterexample: the two-member union
`NonContiguous([Cell A1, Cell B2])` does not contain (an equal copy of)
itself, so containment is not reflexive for every Reference. -/
theorem C3_counterexample :
    RangeOrCell.contains
        (.NonContiguous (.cons (.Cell (Address.new 0 0))
          (.cons (.Cell (Address.new 1 1)) .nil)))
        (.NonContiguous (.cons (.Cell (Address.new 0 0))
          (.cons (.Cell (Address.new 1 1)) .nil))) = false := by
  simp [RangeOrCell.contains, anyContains, allMembersContain, Address.rustEq,
    Column.rustEq, Row.rustEq, Address.new, Column.new, Row.new]

/-- Claim C3 (amended): containment is reflexive for every `Cell`,
`ColumnRange` and `RowRange`, and for every bounded `Range` whose corners
are diagonally aligned; it fails in general for `NonContiguous` unions
with two or more distinct members and for anti-diagonal `Range`s. -/
theorem C3_contains_refl (r : RangeOrCell) (h : reflDomain r) :
    RangeOrCell.contains r r = true := by
  match r with
  | .Cell a =>
    simp [RangeOrCell.contains, Address.rustEq, Column.rustEq, Row.rustEq]
  | .ColumnRange f t =>
    simp only [RangeOrCell.contains, Column.is_between, Bool.and_eq_true,
      decide_eq_true_eq]
    omega
  | .RowRange f t =>
    simp only [RangeOrCell.contains, Row.is_between, Bool.and_eq_true,
      decide_eq_true_eq]
    omega
  | .Range f t =>
    obtain ⟨halign, -, -⟩ := h
    rcases halign with hh | hh <;>
      · simp only [RangeOrCell.contains, Address.is_between, Address.origin_distance,
          Bool.and_eq_true, decide_eq_true_eq]
        constructor <;> (split <;> omega)
  | .NonContiguous l => exact absurd h (by simp [reflDomain])

/-- Witness for C3: a cell contains itself. -/
theorem C3_contains_refl_witness :
    RangeOrCell.contains (.Cell (Address.new 4 7)) (.Cell (Address.new 4 7)) = true :=
  C3_contains_refl (.Cell (Address.new 4 7)) trivial

/-- Helper: `Column::shift_left` written as plain truncated subtraction. -/
theorem Column.shift_left_eq (c : Column) (n : Nat) :
    Column.shift_left c n = { absolute := c.absolute, x := c.x - n } := by
  cases c
  simp [Column.shift_left]

/-- Helper: `Row::shift_up` written as plain truncated subtraction (the
`rows == 0` early return yields the same value). -/
theorem Row.shift_up_eq (r : Row) (n : Nat) :
    Row.shift_up r n = { absolute := r.absolute, y := r.y - n } := by
  cases r with
  | mk ab y =>
    unfold Row.shift_up
    split
    · simp_all
    · simp

/-- Claim C9: `shift_left` on `Cell`, `Range` and `ColumnRange` (and
`shift_up` on the row axis) translates every affected index to
`index - n` saturated at 0 (`Nat` subtraction is exactly that), preserves
the absolute flags, and never fails; `shift_up` on a `ColumnRange` is a
no-op; a cell at column 0 shifted left stays at column 0. -/
theorem C9_shift_saturates_at_zero :
    ∀ (a b : Address) (f t : Column) (ab : Bool) (w : Row) (n : Nat),
      RangeOrCell.shift_left (.Cell a) n =
          .Cell { column := { absolute := a.column.absolute, x := a.column.x - n },
                  row := a.row }
        ∧ RangeOrCell.shift_left (.Range a b) n =
            .Range { column := { absolute := a.column.absolute, x := a.column.x - n },
                     row := a.row }
                   { column := { absolute := b.column.absolute, x := b.column.x - n },
                     row := b.row }
        ∧ RangeOrCell.shift_left (.ColumnRange f t) n =
            .ColumnRange { absolute := f.absolute, x := f.x - n }
              { absolute := t.absolute, x := t.x - n }
        ∧ RangeOrCell.shift_up (.Cell a) n =
            .Cell { column := a.column,
                    row := { absolute := a.row.absolute, y := a.row.y - n } }
        ∧ RangeOrCell.shift_up (.Range a b) n =
            .Range { column := a.column,
                     row := { absolute := a.row.absolute, y := a.row.y - n } }
                   { column := b.column,
                     row := { absolute := b.row.absolute, y := b.row.y - n } }
        ∧ RangeOrCell.shift_up (.ColumnRange f t) n = .ColumnRange f t
        ∧ RangeOrCell.shift_left (.Cell { column := { absolute := ab, x := 0 }, row := w }) n =
            .Cell { column := { absolute := ab, x := 0 }, row := w } := by
  intro a b f t ab w n
  refine ⟨?_, ?_, ?_, ?_, ?_, rfl, ?_⟩ <;>
    simp [RangeOrCell.shift_left, RangeOrCell.shift_up, Address.shift_left,
      Address.shift_up, Column.shift_left_eq, Row.shift_up_eq]

/-- Claim C10: `shift_right` on a `Column` and `shift_down` on a `Row`
saturate at `usize::MAX = USIZE - 1` instead of overflowing, and preserve
the absolute flag.  (The hypothesis `r.y < USIZE` is the `usize` range
invariant of the stored index, needed because `shift_down` early-returns
the unclamped value when `n = 0`.) -/
theorem C10_shift_saturates_at_max (c : Column) (r : Row) (n : Nat)
    (hr : r.y < USIZE) :
    Column.shift_right c n = { absolute := c.absolute, x := min (c.x + n) (USIZE - 1) }
      ∧ Row.shift_down r n = { absolute := r.absolute, y := min (r.y + n) (USIZE - 1) } := by
  constructor
  · rfl
  · unfold Row.shift_down
    split
    · rename_i h
      have hn : n = 0 := by simpa using h
      subst hn
      cases r with
      | mk ab y =>
        simp only [USIZE] at hr ⊢
        simp only [Row.mk.injEq, true_and]
        omega
    · rfl

/-- Witness for C10 at concrete inputs. -/
theorem C10_shift_saturates_at_max_witness :
    Column.shift_right (Column.new 3) 7 =
        { absolute := false, x := min 10 (USIZE - 1) }
      ∧ Row.shift_down (Row.new 5) 0 =
          { absolute := false, y := min 5 (USIZE - 1) } :=
  ⟨(C10_shift_saturates_at_max (Column.new 3) (Row.new 5) 7
      (by norm_num [Row.new, USIZE])).1,
   (C10_shift_saturates_at_max (Column.new 3) (Row.new 5) 0
      (by norm_num [Row.new, USIZE])).2⟩


/-! ### String conversion: parsing and formatting -/

/-- The `ALPHA` table (src/lib.rs). -/
def ALPHA : List Char :=
  ['A', 'B', 'C', 'D', 'E', 'F', 'G', 'H', 'I',
   'J', 'K', 'L', 'M', 'N', 'O', 'P', 'Q', 'R',
   'S', 'T', 'U', 'V', 'W', 'X', 'Y', 'Z']

/-- `Error::A1ParseError` (src/error.rs).  It carries the offending input
and a human-readable message; the message text is elided here since no
caller inspects it. -/
inductive Error where
  | A1ParseError (bad_input : List Char)
deriving DecidableEq

/-- `iter().position(|&c| c == p)` over a list of characters. -/
def listPos (p : Char) : List Char → Option Nat
  | [] => none
  | c :: rest => if c == p then some 0 else (listPos p rest).map (· + 1)

/-- `s.strip_prefix('$')`, returning the `absolute` flag and the rest. -/
def stripAbs (s : List Char) : Bool × List Char :=
  match s with
  | c :: rest => if c == '$' then (true, rest) else (false, s)
  | [] => (false, s)

/-- The accumulation loop of `Column::from_str` (src/column/from_str.rs):
`x = x * 26 + ch_index + 1` per letter, erroring on a non-letter. -/
def colLoop : List Char → Nat → Except Error Nat
  | [], x => .ok x
  | ch :: rest, x =>
    match listPos ch.toUpper ALPHA with
    | some i => colLoop rest (x * 26 + i + 1)
    | none => .error (.A1ParseError [ch])

/-- The final `x - 1` of `Column::from_str` is a `usize` subtraction.  For
`x = 0` (an empty letter run, e.g. input `""` or `"$"`) it wraps to
`usize::MAX = USIZE - 1` when overflow checks are off, and panics in a
debug build; either way it is not a parse error. -/
def colFinal (x : Nat) : Nat := if x = 0 then USIZE - 1 else x - 1

/-- `Column::from_str` (src/column/from_str.rs). -/
def Column.from_str (s : List Char) : Except Error Column :=
  let (absolute, ys) := stripAbs s
  (colLoop ys 0).map (fun x => { absolute := absolute, x := colFinal x })

/-- `str::parse::<usize>()`: an optional leading `+`, then one or more
ASCII digits, with the value below `2^64`; anything else (including the
empty string) fails. -/
def parseUsize (l : List Char) : Option Nat :=
  let digits := match l with
    | c :: rest => if c == '+' then rest else l
    | [] => l
  if digits.isEmpty then none
  else if digits.all Char.isDigit then
    let v := digits.foldl (fun acc c => acc * 10 + (c.toNat - 48)) 0
    if v < USIZE then some v else none
  else none

/-- `Row::from_str` (src/row/from_str.rs): parses the number, requires it
to be at least 1, and stores it zero-based. -/
def Row.from_str (s : List Char) : Except Error Row :=
  let (absolute, ys) := stripAbs s
  match parseUsize ys with
  | none => .error (.A1ParseError s)
  | some y =>
    if y < 1 then .error (.A1ParseError s)
    else .ok { absolute := absolute, y := y - 1 }

/-- The scan of `Address::from_str` (src/address/from_str.rs): the first
index whose character is `$` (at a positive index) or an ASCII digit;
`split_at` keeps its initial value 0 when no such index exists (a match at
index 0 is indistinguishable from that, and both are the error path). -/
def addrSplitIdx : Nat → List Char → Nat
  | _, [] => 0
  | i, c :: rest =>
    if (c == '$' && decide (0 < i)) || c.isDigit then i else addrSplitIdx (i + 1) rest

/-- `Address::from_str` (src/address/from_str.rs). -/
def Address.from_str (a1 : List Char) : Except Error Address :=
  let split_at := addrSplitIdx 0 a1
  if split_at = 0 then .error (.A1ParseError a1)
  else do
    let column ← Column.from_str (a1.take split_at)
    let row ← Row.from_str (a1.drop split_at)
    .ok { column := column, row := row }

/-- `str::split_once(sep)`: split at the first occurrence of `sep`. -/
def splitOnce (sep : Char) : List Char → Option (List Char × List Char)
  | [] => none
  | c :: rest =>
    if c == sep then some ([], rest)
    else (splitOnce sep rest).map (fun p => (c :: p.1, p.2))

/-- `str::split(sep)` collected into a vector: always at least one piece,
with empty pieces kept. -/
def splitOn (sep : Char) : List Char → List (List Char)
  | [] => [[]]
  | c :: rest =>
    match splitOn sep rest with
    | [] => [[c]]
    | h :: t => if c == sep then [] :: h :: t else (c :: h) :: t

/-- `parse_str` (src/range_or_cell/from_str.rs): one comma-free segment.
A `:` plus two digit/`$` sides is a `RowRange`; two letter/`$` sides a
`ColumnRange`; otherwise a bounded `Range`; no `:` is a single `Cell`. -/
def parse_str (a1 : List Char) : Except Error RangeOrCell :=
  match splitOnce ':' a1 with
  | some (l, r) =>
    if (l.all fun c => c == '$' || c.isDigit) && (r.all fun c => c == '$' || c.isDigit) then do
      let f ← Row.from_str l
      let t ← Row.from_str r
      return .RowRange f t
    else if (l.all fun c => c == '$' || c.isAlpha) && (r.all fun c => c == '$' || c.isAlpha) then do
      let f ← Column.from_str l
      let t ← Column.from_str r
      return .ColumnRange f t
    else do
      let f ← Address.from_str l
      let t ← Address.from_str r
      return .Range f t
  | none => (Address.from_str a1).map .Cell

/-- A Lean list of references, as a `ROCList`. -/
def toROCList : List RangeOrCell → ROCList
  | [] => .nil
  | h :: rest => .cons h (toROCList rest)

/-- `RangeOrCell::from_str` (src/range_or_cell/from_str.rs): split on
commas; more than one piece makes a `NonContiguous`. -/
def RangeOrCell.from_str (a1 : List Char) : Except Error RangeOrCell :=
  let range_strs := splitOn ',' a1
  if 1 < range_strs.length then
    (range_strs.mapM parse_str).map (fun l => .NonContiguous (toROCList l))
  else
    match range_strs.head? with
    | some s => parse_str s
    | none => .error (.A1ParseError a1)

/-- `ALPHA[k]` (the source indexes with `c % 26`, always in bounds; the
default is unreachable). -/
def alphaAt (k : Nat) : Char := ALPHA.getD k 'A'

/-- The letter-building loop of `impl Display for Column`
(src/column/display.rs): prepend `ALPHA[c % 26]`, continue with
`floor(c / 26) - 1` until that would be negative.  The source computes the
division by a round trip through `f64`, which is exact below `2 ^ 49`; we
model it as `Nat` division and carry that bound in round-trip theorems. -/
def dispLetters (c : Nat) : List Char :=
  if c < 26 then [alphaAt (c % 26)]
  else dispLetters (c / 26 - 1) ++ [alphaAt (c % 26)]
termination_by c
decreasing_by
  have := Nat.div_le_self c 26
  omega

/-- The decimal digit characters. -/
def DIGITS : List Char := ['0', '1', '2', '3', '4', '5', '6', '7', '8', '9']

/-- `DIGITS[k]` for `k < 10`. -/
def digitAt (k : Nat) : Char := DIGITS.getD k '0'

/-- Little-endian decimal digit characters of `n` (empty for 0). -/
def decDigitsRev (n : Nat) : List Char :=
  if n = 0 then []
  else digitAt (n % 10) :: decDigitsRev (n / 10)
termination_by n
decreasing_by
  have := Nat.div_le_self n 10
  omega

/-- Decimal rendering of a `usize` (Rust `{}` formatting). -/
def natToStr (n : Nat) : List Char :=
  if n = 0 then ['0'] else (decDigitsRev n).reverse

/-- `impl Display for Column` (src/column/display.rs). -/
def Column.display (self : Column) : List Char :=
  (if self.absolute then ['$'] else []) ++ dispLetters self.x

/-- `impl Display for Row` (src/row/display.rs): `$`-prefix plus `y + 1`
in decimal. -/
def Row.display (self : Row) : List Char :=
  (if self.absolute then ['$'] else []) ++ natToStr (self.y + 1)

/-- `impl Display for Address` (src/address/display.rs). -/
def Address.display (self : Address) : List Char :=
  self.column.display ++ self.row.display

mutual
/-- `impl Display for RangeOrCell` (src/range_or_cell/display.rs). -/
def RangeOrCell.display : RangeOrCell → List Char
  | .Cell p => p.display
  | .ColumnRange f t => f.display ++ ':' :: t.display
  | .NonContiguous l => ROCList.displayJoin l
  | .Range f t => f.display ++ ':' :: t.display
  | .RowRange f t => f.display ++ ':' :: t.display

/-- The members' renderings joined by `", "` (`Vec::join`). -/
def ROCList.displayJoin : ROCList → List Char
  | .nil => []
  | .cons h .nil => RangeOrCell.display h
  | .cons h (.cons h2 rest) =>
      RangeOrCell.display h ++ ',' :: ' ' :: ROCList.displayJoin (.cons h2 rest)
end

/-- The single-quote character. -/
def squote : Char := Char.ofNat 39

/-- The backslash character. -/
def bslash : Char := Char.ofNat 92

/-- `escape_quotes` (src/a1/display.rs): `sheet_name.replace('\'', "\\'")`
— each single-quote becomes backslash-quote, NOT a doubled quote. -/
def escape_quotes : List Char → List Char
  | [] => []
  | c :: rest => (if c == squote then [bslash, squote] else [c]) ++ escape_quotes rest

/-- `needs_quotes` (src/a1/display.rs): whitespace or a single-quote. -/
def needs_quotes (sheet_name : List Char) : Bool :=
  sheet_name.any (fun c => c.isWhitespace || c == squote)

/-- `A1 { sheet_name: Option<String>, reference: RangeOrCell }` (src/a1/mod.rs). -/
structure A1 where
  sheet_name : Option (List Char)
  reference : RangeOrCell

/-- `impl Display for A1` (src/a1/display.rs). -/
def A1.display (self : A1) : List Char :=
  match self.sheet_name with
  | some sheet_name =>
    if needs_quotes sheet_name then
      squote :: (escape_quotes sheet_name ++ squote :: '!' :: self.reference.display)
    else sheet_name ++ '!' :: self.reference.display
  | none => self.reference.display

/-- The character loop of `parse_quoted_sheet_name` (src/a1/from_str.rs),
carried out on (remaining input, current index, accumulated unquoted name,
`saw_start_quote`, `last_was_quote`); returns the unquoted name and
`consumed` (0 when the loop ran out of input without the break). -/
def pqsnLoop : List Char → Nat → List Char → Bool → Bool → (List Char × Nat)
  | [], _, acc, _, _ => (acc, 0)
  | c :: rest, i, acc, saw, lastq =>
    if c == squote then
      if lastq then pqsnLoop rest (i + 1) (acc ++ [c]) saw false
      else if !saw then pqsnLoop rest (i + 1) acc true lastq
      else pqsnLoop rest (i + 1) acc saw true
    else
      if lastq then (acc, i)
      else pqsnLoop rest (i + 1) (acc ++ [c]) saw lastq

/-- `parse_quoted_sheet_name` (src/a1/from_str.rs). -/
def parse_quoted_sheet_name (a1 : List Char) :
    Except Error (Option (List Char) × List Char) :=
  let p := pqsnLoop a1 0 [] false false
  if p.2 = 0 then .error (.A1ParseError a1)
  else
    match a1.drop p.2 with
    | '!' :: rest => .ok (some p.1, rest)
    | _ => .error (.A1ParseError a1)

/-- `parse_sheet_name` (src/a1/from_str.rs). -/
def parse_sheet_name (a1 : List Char) :
    Except Error (Option (List Char) × List Char) :=
  let trimmed_a1 := a1.dropWhile Char.isWhitespace
  if trimmed_a1.head? == some squote then parse_quoted_sheet_name trimmed_a1
  else
    match splitOnce '!' a1 with
    | some (sheet_name, rest) => .ok (some sheet_name, rest)
    | none => .ok (none, a1)

/-- `impl FromStr for A1` (src/a1/from_str.rs). -/
def A1.from_str (a1 : List Char) : Except Error A1 := do
  let p ← parse_sheet_name a1
  let reference ← RangeOrCell.from_str p.2
  return { sheet_name := p.1, reference := reference }


/-- Claim C5: the claim says the scalar parsers return a typed parse error
on an empty token, in particular `Column::from_str("")` and
`Column::from_str("$")`.  The code instead runs its letter loop zero
times, leaving the accumulator at 0, and returns `Ok` of `0 - 1` on
`usize` — a wrap to `usize::MAX` with overflow checks off and an overflow
panic in debug builds, never a parse error.  (`Row::from_str("")` does
error, as claimed.) -/
theorem C5_column_parser_accepts_empty_token :
    Column.from_str [] = .ok { absolute := false, x := USIZE - 1 }
      ∧ Column.from_str ['$'] = .ok { absolute := true, x := USIZE - 1 }
      ∧ Row.from_str [] = .error (.A1ParseError []) := by
  refine ⟨rfl, rfl, rfl⟩

/-- The sheet name `Foo's Bar` (contains whitespace and a single-quote). -/
def fooSheetName : List Char := ['F', 'o', 'o'] ++ squote :: ['s', ' ', 'B', 'a', 'r']

/-- Claim C6: the claim says formatting doubles internal single-quotes
(so the sheet name `Foo's Bar` renders as `'Foo''s Bar'!B2`).  The code's
`escape_quotes` instead replaces each single-quote with backslash-quote,
producing `'Foo\'s Bar'!B2`; the crate's own `parse_quoted_sheet_name`
understands only the doubled form (it parses `'Foo''s Bar'!B2` back to the
name `Foo's Bar`), so display and parse disagree. -/
theorem C6_escape_quotes_backslash_not_doubled :
    A1.display { sheet_name := some fooSheetName, reference := .Cell (Address.new 1 1) }
        = squote :: (['F', 'o', 'o'] ++ bslash :: squote :: ['s', ' ', 'B', 'a', 'r'])
            ++ squote :: '!' :: ['B', '2']
      ∧ A1.display { sheet_name := some fooSheetName, reference := .Cell (Address.new 1 1) }
          ≠ squote :: (['F', 'o', 'o'] ++ squote :: squote :: ['s', ' ', 'B', 'a', 'r'])
              ++ squote :: '!' :: ['B', '2']
      ∧ A1.from_str
            (squote :: (['F', 'o', 'o'] ++ squote :: squote :: ['s', ' ', 'B', 'a', 'r'])
              ++ squote :: '!' :: ['B', '2'])
          = .ok { sheet_name := some fooSheetName, reference := .Cell (Address.new 1 1) } := by
  refine ⟨?_, ?_, ?_⟩
  · simp [A1.display, needs_quotes, fooSheetName, escape_quotes, squote, bslash,
      RangeOrCell.display, Address.display, Column.display, Row.display, Address.new,
      Column.new, Row.new, dispLetters, natToStr, decDigitsRev, alphaAt, digitAt,
      ALPHA, DIGITS]
  · simp [A1.display, needs_quotes, fooSheetName, escape_quotes, squote, bslash,
      RangeOrCell.display, Address.display, Column.display, Row.display, Address.new,
      Column.new, Row.new, dispLetters, natToStr, decDigitsRev, alphaAt, digitAt,
      ALPHA, DIGITS]
  · simp [A1.from_str, parse_sheet_name, parse_quoted_sheet_name, pqsnLoop, squote,
      fooSheetName, RangeOrCell.from_str, splitOn, splitOnce, parse_str,
      Address.from_str, addrSplitIdx, Column.from_str, stripAbs, colLoop, listPos,
      colFinal, Row.from_str, parseUsize, Address.new, Column.new, Row.new, ALPHA,
      USIZE, bind, Except.bind, Except.map, pure, Except.pure]

/-- Claim C4, counterexample: the canonical comma-separated string
`A1,B2` (the grammar separates segments with a bare `,`) parses to a
two-member `NonContiguous`, but formatting joins members with `", "`
(comma and space), yielding `A1, B2` which differs from the input.  (With
a space after the comma the input would not even parse, since
`Address::from_str(" B2")` rejects the leading space.) -/
theorem C4_counterexample :
    RangeOrCell.from_str ['A', '1', ',', 'B', '2']
        = .ok (.NonContiguous (.cons (.Cell (Address.new 0 0))
            (.cons (.Cell (Address.new 1 1)) .nil)))
      ∧ RangeOrCell.display (.NonContiguous (.cons (.Cell (Address.new 0 0))
            (.cons (.Cell (Address.new 1 1)) .nil)))
          = ['A', '1', ',', ' ', 'B', '2']
      ∧ (['A', '1', ',', ' ', 'B', '2'] : List Char) ≠ ['A', '1', ',', 'B', '2'] := by
  refine ⟨?_, ?_, by decide⟩
  · simp [RangeOrCell.from_str, splitOn, splitOnce, parse_str, Address.from_str,
      addrSplitIdx, Column.from_str, stripAbs, colLoop, listPos, colFinal,
      Row.from_str, parseUsize, Address.new, Column.new, Row.new, ALPHA, USIZE,
      toROCList, List.mapM, List.mapM.loop, bind, Except.bind, Except.map, pure,
      Except.pure]
  · simp [RangeOrCell.display, ROCList.displayJoin, Address.display, Column.display,
      Row.display, Address.new, Column.new, Row.new, dispLetters, natToStr,
      decDigitsRev, alphaAt, digitAt, ALPHA, DIGITS]


/-! ### Round-trip lemmas for canonical strings (claim C4) -/

/-- Finite character facts about the letter table, settled by computation. -/
theorem mem_ALPHA_not_digit : ∀ ch ∈ ALPHA, ch.isDigit = false := by decide

theorem mem_ALPHA_isAlpha : ∀ ch ∈ ALPHA, ch.isAlpha = true := by decide

theorem mem_ALPHA_ne_dollar : ∀ ch ∈ ALPHA, ch ≠ '$' := by decide

theorem mem_ALPHA_ne_colon : ∀ ch ∈ ALPHA, ch ≠ ':' := by decide

theorem mem_ALPHA_ne_comma : ∀ ch ∈ ALPHA, ch ≠ ',' := by decide

theorem mem_DIGITS_isDigit : ∀ ch ∈ DIGITS, ch.isDigit = true := by decide

theorem mem_DIGITS_not_alpha : ∀ ch ∈ DIGITS, ch.isAlpha = false := by decide

theorem mem_DIGITS_ne_dollar : ∀ ch ∈ DIGITS, ch ≠ '$' := by decide

theorem mem_DIGITS_ne_colon : ∀ ch ∈ DIGITS, ch ≠ ':' := by decide

theorem mem_DIGITS_ne_comma : ∀ ch ∈ DIGITS, ch ≠ ',' := by decide

theorem mem_DIGITS_ne_plus : ∀ ch ∈ DIGITS, ch ≠ '+' := by decide

theorem alphaAt_mem : ∀ k, k < 26 → alphaAt k ∈ ALPHA := by decide

theorem digitAt_mem : ∀ k, k < 10 → digitAt k ∈ DIGITS := by decide

/-- The parser's `position` lookup inverts the display table. -/
theorem listPos_alphaAt : ∀ k, k < 26 → listPos (alphaAt k).toUpper ALPHA = some k := by
  decide

theorem digitAt_toNat : ∀ k, k < 10 → (digitAt k).toNat - 48 = k := by decide

/-- A list with a member violating `p` fails `List.all`. -/
theorem all_false_of_mem {p : Char → Bool} {l : List Char} {x : Char}
    (hx : x ∈ l) (hp : p x = false) : l.all p = false := by
  cases h : l.all p
  · rfl
  · exact absurd (List.all_eq_true.mp h x hx) (by simp [hp])

theorem dispLetters_ne_nil (c : Nat) : dispLetters c ≠ [] := by
  unfold dispLetters
  split <;> simp

theorem dispLetters_mem (c : Nat) : ∀ ch ∈ dispLetters c, ch ∈ ALPHA := by
  induction c using Nat.strong_induction_on with
  | _ c ih =>
    unfold dispLetters
    split
    · intro ch hch
      simp only [List.mem_singleton] at hch
      subst hch
      exact alphaAt_mem _ (Nat.mod_lt _ (by norm_num))
    · intro ch hch
      rcases List.mem_append.mp hch with h | h
      · have := Nat.div_le_self c 26
        exact ih (c / 26 - 1) (by omega) ch h
      · simp only [List.mem_singleton] at h
        subst h
        exact alphaAt_mem _ (Nat.mod_lt _ (by norm_num))

theorem colLoop_append (l1 l2 : List Char) (x : Nat) :
    colLoop (l1 ++ l2) x = match colLoop l1 x with
      | .ok v => colLoop l2 v
      | .error e => .error e := by
  induction l1 generalizing x with
  | nil => simp [colLoop]
  | cons ch rest ih =>
    simp only [List.cons_append, colLoop]
    cases listPos ch.toUpper ALPHA with
    | none => simp
    | some i => simp [ih]

/-- The letter loop of the parser inverts the letter loop of the display:
bijective base-26. -/
theorem colLoop_dispLetters (c : Nat) :
    ∀ acc, colLoop (dispLetters c) acc
      = .ok (acc * 26 ^ (dispLetters c).length + (c + 1)) := by
  induction c using Nat.strong_induction_on with
  | _ c ih =>
    intro acc
    by_cases h : c < 26
    · unfold dispLetters
      simp only [h, if_pos]
      have hc : c % 26 = c := Nat.mod_eq_of_lt h
      simp [colLoop, hc, listPos_alphaAt c h]
      ring
    · have hsub : c / 26 - 1 < c := by
        have := Nat.div_le_self c 26
        omega
      have h26 : 26 ≤ c := by omega
      have hdiv : 1 ≤ c / 26 := (Nat.one_le_div_iff (by norm_num)).mpr h26
      have hlen : (dispLetters c).length = (dispLetters (c / 26 - 1)).length + 1 := by
        conv_lhs => rw [dispLetters]
        rw [if_neg h]
        simp
      conv_lhs => rw [dispLetters]
      rw [if_neg h, colLoop_append, ih (c / 26 - 1) hsub acc]
      have hmod : c % 26 < 26 := Nat.mod_lt _ (by norm_num)
      simp only [colLoop, listPos_alphaAt (c % 26) hmod]
      rw [hlen, pow_succ, ← mul_assoc]
      have hdm := Nat.div_add_mod c 26
      set B := acc * 26 ^ (dispLetters (c / 26 - 1)).length with hB
      congr 1
      omega

/-- `strip_prefix('$')` on a canonical token peels exactly the marker. -/
theorem stripAbs_canonTok (ab : Bool) (body : List Char) (c : Char) (rest : List Char)
    (hd : body = c :: rest) (h : c ≠ '$') :
    stripAbs ((if ab then ['$'] else []) ++ body) = (ab, body) := by
  cases ab <;> simp [stripAbs, hd, h]

/-- `Column::from_str` inverts the canonical column rendering. -/
theorem colFromStr_canon (ab : Bool) (x : Nat) :
    Column.from_str ((if ab then ['$'] else []) ++ dispLetters x)
      = .ok { absolute := ab, x := x } := by
  obtain ⟨c, rest, hd⟩ : ∃ c rest, dispLetters x = c :: rest := by
    cases hd : dispLetters x with
    | nil => exact absurd hd (dispLetters_ne_nil x)
    | cons c rest => exact ⟨c, rest, rfl⟩
  have hc : c ∈ ALPHA := dispLetters_mem x c (by rw [hd]; simp)
  have hstrip := stripAbs_canonTok ab (dispLetters x) c rest hd (mem_ALPHA_ne_dollar c hc)
  have hloop := colLoop_dispLetters x 0
  simp only [zero_mul, zero_add] at hloop
  unfold Column.from_str
  rw [hstrip]
  simp [hloop, colFinal, Except.map]

theorem decDigitsRev_mem (n : Nat) : ∀ ch ∈ decDigitsRev n, ch ∈ DIGITS := by
  induction n using Nat.strong_induction_on with
  | _ n ih =>
    unfold decDigitsRev
    split
    · simp
    · rename_i h
      intro ch hch
      rcases List.mem_cons.mp hch with hh | hh
      · subst hh
        exact digitAt_mem _ (Nat.mod_lt _ (by norm_num))
      · have := Nat.div_le_self n 10
        exact ih (n / 10) (by omega) ch hh

theorem decDigitsRev_ne_nil (n : Nat) (h : n ≠ 0) : decDigitsRev n ≠ [] := by
  unfold decDigitsRev
  simp [h]

/-- The decimal fold of the parser inverts the decimal digits of the
display. -/
theorem foldl_decDigitsRev (n : Nat) :
    ∀ acc, ((decDigitsRev n).reverse).foldl (fun acc c => acc * 10 + (c.toNat - 48)) acc
      = acc * 10 ^ (decDigitsRev n).length + n := by
  induction n using Nat.strong_induction_on with
  | _ n ih =>
    intro acc
    by_cases h : n = 0
    · subst h
      simp [decDigitsRev]
    · have hstep : n / 10 < n := Nat.div_lt_self (by omega) (by norm_num)
      conv_lhs => rw [decDigitsRev]
      rw [if_neg h]
      simp only [List.reverse_cons, List.foldl_append, List.foldl_cons, List.foldl_nil]
      rw [ih (n / 10) hstep acc]
      rw [digitAt_toNat (n % 10) (Nat.mod_lt _ (by norm_num))]
      conv_rhs => rw [decDigitsRev]
      rw [if_neg h]
      simp only [List.length_cons, pow_succ, ← mul_assoc]
      have hdm := Nat.div_add_mod n 10
      set B := acc * 10 ^ (decDigitsRev (n / 10)).length with hB
      omega

theorem natToStr_mem (n : Nat) : ∀ ch ∈ natToStr n, ch ∈ DIGITS := by
  unfold natToStr
  split
  · decide
  · intro ch hch
    exact decDigitsRev_mem n ch (List.mem_reverse.mp hch)

theorem natToStr_ne_nil (n : Nat) : natToStr n ≠ [] := by
  unfold natToStr
  split
  · simp
  · rename_i h
    simp [decDigitsRev_ne_nil n h]

/-- `str::parse::<usize>` inverts the decimal rendering (for values in the
`usize` range). -/
theorem parseUsize_natToStr (n : Nat) (h1 : 1 ≤ n) (h2 : n < USIZE) :
    parseUsize (natToStr n) = some n := by
  have hne : n ≠ 0 := by omega
  have hmem := natToStr_mem n
  unfold parseUsize
  cases hd : natToStr n with
  | nil => exact absurd hd (natToStr_ne_nil n)
  | cons c rest =>
    have hc : c ∈ DIGITS := hmem c (by rw [hd]; simp)
    have hplus : (c == '+') = false := by
      simp [mem_DIGITS_ne_plus c hc]
    simp only [hplus, if_neg Bool.false_ne_true]
    rw [← hd]
    have hempty : (natToStr n).isEmpty = false := by
      rw [hd]
      rfl
    rw [hempty]
    have hall : (natToStr n).all Char.isDigit = true :=
      List.all_eq_true.mpr fun ch hch => mem_DIGITS_isDigit ch (hmem ch hch)
    have hfold : (natToStr n).foldl (fun acc c => acc * 10 + (c.toNat - 48)) 0 = n := by
      unfold natToStr
      rw [if_neg hne]
      rw [foldl_decDigitsRev n 0]
      simp
    simp [hall, hfold, h2]

/-- `Row::from_str` inverts the canonical row rendering. -/
theorem rowFromStr_canon (ab : Bool) (y : Nat) (h : y + 1 < USIZE) :
    Row.from_str ((if ab then ['$'] else []) ++ natToStr (y + 1))
      = .ok { absolute := ab, y := y } := by
  obtain ⟨c, rest, hd⟩ : ∃ c rest, natToStr (y + 1) = c :: rest := by
    cases hd : natToStr (y + 1) with
    | nil => exact absurd hd (natToStr_ne_nil (y + 1))
    | cons c rest => exact ⟨c, rest, rfl⟩
  have hc : c ∈ DIGITS := natToStr_mem (y + 1) c (by rw [hd]; simp)
  have hstrip := stripAbs_canonTok ab (natToStr (y + 1)) c rest hd (mem_DIGITS_ne_dollar c hc)
  have hp := parseUsize_natToStr (y + 1) (by omega) h
  unfold Row.from_str
  rw [hstrip]
  simp [hp]


/-- Canonical-form column token descriptor for the round-trip claim: the
`$` marker flag and the zero-based index whose upper-case letters form the
token. -/
structure CanonCol where
  absolute : Bool
  x : Nat

/-- Canonical-form row token descriptor. -/
structure CanonRow where
  absolute : Bool
  y : Nat

/-- A canonical single segment of the grammar (`cell`, `range`,
`colrange`, `rowrange` of the spec §6), described by its tokens. -/
inductive CanonSeg where
  | cell (c : CanonCol) (r : CanonRow)
  | cellRange (c1 : CanonCol) (r1 : CanonRow) (c2 : CanonCol) (r2 : CanonRow)
  | colRange (c1 c2 : CanonCol)
  | rowRange (r1 r2 : CanonRow)

/-- The canonical text of a column token: optional `$`, then the upper-case
letters of the index (as the display produces them). -/
def CanonCol.str (c : CanonCol) : List Char :=
  (if c.absolute then ['$'] else []) ++ dispLetters c.x

/-- The canonical text of a row token: optional `$`, then the one-based
decimal number without leading zeros. -/
def CanonRow.str (r : CanonRow) : List Char :=
  (if r.absolute then ['$'] else []) ++ natToStr (r.y + 1)

/-- The canonical text of a segment. -/
def CanonSeg.str : CanonSeg → List Char
  | .cell c r => c.str ++ r.str
  | .cellRange c1 r1 c2 r2 => (c1.str ++ r1.str) ++ ':' :: (c2.str ++ r2.str)
  | .colRange c1 c2 => c1.str ++ ':' :: c2.str
  | .rowRange r1 r2 => r1.str ++ ':' :: r2.str

def CanonCol.val (c : CanonCol) : Column := { absolute := c.absolute, x := c.x }

def CanonRow.val (r : CanonRow) : Row := { absolute := r.absolute, y := r.y }

/-- The reference a canonical segment denotes. -/
def CanonSeg.val : CanonSeg → RangeOrCell
  | .cell c r => .Cell { column := c.val, row := r.val }
  | .cellRange c1 r1 c2 r2 =>
      .Range { column := c1.val, row := r1.val } { column := c2.val, row := r2.val }
  | .colRange c1 c2 => .ColumnRange c1.val c2.val
  | .rowRange r1 r2 => .RowRange r1.val r2.val

/-- Machine-range side conditions: the column index small enough that the
source's `f64` division in the display and its `usize` accumulator in the
parser are exact, and the one-based row number inside `usize`. -/
def CanonCol.ok (c : CanonCol) : Prop := c.x < 2 ^ 49

def CanonRow.ok (r : CanonRow) : Prop := r.y + 1 < USIZE

def CanonSeg.ok : CanonSeg → Prop
  | .cell c r => c.ok ∧ r.ok
  | .cellRange c1 r1 c2 r2 => c1.ok ∧ r1.ok ∧ c2.ok ∧ r2.ok
  | .colRange c1 c2 => c1.ok ∧ c2.ok
  | .rowRange r1 r2 => r1.ok ∧ r2.ok

theorem canonCol_str_chars (c : CanonCol) : ∀ ch ∈ c.str, ch = '$' ∨ ch ∈ ALPHA := by
  intro ch hch
  unfold CanonCol.str at hch
  rcases List.mem_append.mp hch with h | h
  · left
    rcases c.absolute with _ | _ <;> simp_all
  · exact Or.inr (dispLetters_mem _ ch h)

theorem canonRow_str_chars (r : CanonRow) : ∀ ch ∈ r.str, ch = '$' ∨ ch ∈ DIGITS := by
  intro ch hch
  unfold CanonRow.str at hch
  rcases List.mem_append.mp hch with h | h
  · left
    rcases r.absolute with _ | _ <;> simp_all
  · exact Or.inr (natToStr_mem _ ch h)

theorem canonCol_no_colon (c : CanonCol) : ':' ∉ c.str := by
  intro hm
  rcases canonCol_str_chars c ':' hm with h | h
  · exact absurd h (by decide)
  · exact absurd rfl (mem_ALPHA_ne_colon ':' h)

theorem canonRow_no_colon (r : CanonRow) : ':' ∉ r.str := by
  intro hm
  rcases canonRow_str_chars r ':' hm with h | h
  · exact absurd h (by decide)
  · exact absurd rfl (mem_DIGITS_ne_colon ':' h)

theorem CanonSeg.no_comma (s : CanonSeg) : ',' ∉ s.str := by
  have hcol : ∀ c : CanonCol, ',' ∉ c.str := by
    intro c hm
    rcases canonCol_str_chars c ',' hm with h | h
    · exact absurd h (by decide)
    · exact absurd rfl (mem_ALPHA_ne_comma ',' h)
  have hrow : ∀ r : CanonRow, ',' ∉ r.str := by
    intro r hm
    rcases canonRow_str_chars r ',' hm with h | h
    · exact absurd h (by decide)
    · exact absurd rfl (mem_DIGITS_ne_comma ',' h)
  intro hm
  cases s with
  | cell c r =>
    unfold CanonSeg.str at hm
    rcases List.mem_append.mp hm with h | h
    · exact hcol c h
    · exact hrow r h
  | cellRange c1 r1 c2 r2 =>
    unfold CanonSeg.str at hm
    rcases List.mem_append.mp hm with h | h
    · rcases List.mem_append.mp h with h1 | h1
      · exact hcol c1 h1
      · exact hrow r1 h1
    · rcases List.mem_cons.mp h with h1 | h1
      · exact absurd h1 (by decide)
      · rcases List.mem_append.mp h1 with h2 | h2
        · exact hcol c2 h2
        · exact hrow r2 h2
  | colRange c1 c2 =>
    unfold CanonSeg.str at hm
    rcases List.mem_append.mp hm with h | h
    · exact hcol c1 h
    · rcases List.mem_cons.mp h with h1 | h1
      · exact absurd h1 (by decide)
      · exact hcol c2 h1
  | rowRange r1 r2 =>
    unfold CanonSeg.str at hm
    rcases List.mem_append.mp hm with h | h
    · exact hrow r1 h
    · rcases List.mem_cons.mp h with h1 | h1
      · exact absurd h1 (by decide)
      · exact hrow r2 h1

theorem splitOnce_eq_none (sep : Char) (l : List Char) (h : sep ∉ l) :
    splitOnce sep l = none := by
  induction l with
  | nil => rfl
  | cons c rest ih =>
    have hcs : c ≠ sep := fun e => h (by simp [e])
    simp only [splitOnce]
    rw [ih (fun hm => h (List.mem_cons_of_mem _ hm))]
    simp [hcs]

theorem splitOnce_append (sep : Char) (l1 l2 : List Char) (h : sep ∉ l1) :
    splitOnce sep (l1 ++ sep :: l2) = some (l1, l2) := by
  induction l1 with
  | nil => simp [splitOnce]
  | cons c rest ih =>
    have hcs : c ≠ sep := fun e => h (by simp [e])
    have ih2 := ih (fun hm => h (List.mem_cons_of_mem _ hm))
    simp [splitOnce, hcs, ih2]

theorem splitOn_eq_single (sep : Char) (l : List Char) (h : sep ∉ l) :
    splitOn sep l = [l] := by
  induction l with
  | nil => rfl
  | cons c rest ih =>
    have hcs : c ≠ sep := fun e => h (by simp [e])
    simp only [splitOn]
    rw [ih (fun hm => h (List.mem_cons_of_mem _ hm))]
    simp [hcs]

theorem addrSplitIdx_letters (ls : List Char) (hls : ∀ ch ∈ ls, ch ∈ ALPHA) :
    ∀ (i : Nat) (r : List Char), addrSplitIdx i (ls ++ r) = addrSplitIdx (i + ls.length) r := by
  induction ls with
  | nil => intro i r; simp
  | cons c rest ih =>
    intro i r
    have hc : c ∈ ALPHA := hls c (by simp)
    have h1 : (c == '$') = false := by simp [mem_ALPHA_ne_dollar c hc]
    have h2 : c.isDigit = false := mem_ALPHA_not_digit c hc
    simp only [List.cons_append, addrSplitIdx, h1, h2, Bool.false_and, Bool.or_false,
      Bool.false_eq_true, if_neg (by simp : ¬False)]
    show addrSplitIdx (i + 1) (rest ++ r) = addrSplitIdx (i + (c :: rest).length) r
    rw [ih (fun ch hm => hls ch (by simp [hm])) (i + 1) r]
    rw [show i + 1 + rest.length = i + (rest.length + 1) by omega]
    simp

theorem addrSplitIdx_at_row (i : Nat) (hi : 1 ≤ i) (c : Char) (rest : List Char)
    (hc : c = '$' ∨ c.isDigit = true) :
    addrSplitIdx i (c :: rest) = i := by
  rcases hc with h | h
  · subst h
    simp [addrSplitIdx, show 0 < i by omega]
  · simp [addrSplitIdx, h]

theorem CanonRow.str_head (r : CanonRow) :
    ∃ c rest, r.str = c :: rest ∧ (c = '$' ∨ c.isDigit = true) := by
  unfold CanonRow.str
  cases r.absolute with
  | false =>
    cases hd : natToStr (r.y + 1) with
    | nil => exact absurd hd (natToStr_ne_nil (r.y + 1))
    | cons c rest =>
      refine ⟨c, rest, by simp [hd], Or.inr ?_⟩
      exact mem_DIGITS_isDigit c (natToStr_mem (r.y + 1) c (by rw [hd]; simp))
  | true => exact ⟨'$', natToStr (r.y + 1), by simp, Or.inl rfl⟩

theorem CanonCol.str_ne_nil (c : CanonCol) : c.str ≠ [] := by
  unfold CanonCol.str
  cases c.absolute with
  | false => simpa using dispLetters_ne_nil c.x
  | true => simp

/-- The row-start scan of `Address::from_str` splits a canonical cell
string exactly between its column and row tokens. -/
theorem addrSplitIdx_canon (cc : CanonCol) (cr : CanonRow) :
    addrSplitIdx 0 (cc.str ++ cr.str) = cc.str.length := by
  obtain ⟨rc, rrest, hrd, hrc⟩ := cr.str_head
  have hlen : 1 ≤ (dispLetters cc.x).length :=
    List.length_pos.mpr (dispLetters_ne_nil cc.x)
  have hstr : cc.str = (if cc.absolute then ['$'] else []) ++ dispLetters cc.x := rfl
  cases hab : cc.absolute with
  | false =>
    have hcs : cc.str = dispLetters cc.x := by rw [hstr, hab]; simp
    rw [hcs, addrSplitIdx_letters (dispLetters cc.x) (dispLetters_mem cc.x) 0 cr.str]
    rw [hrd, addrSplitIdx_at_row _ (by omega) rc rrest hrc]
    omega
  | true =>
    have hcs : cc.str = '$' :: dispLetters cc.x := by rw [hstr, hab]; simp
    rw [hcs]
    show addrSplitIdx 0 ('$' :: (dispLetters cc.x ++ cr.str)) = ('$' :: dispLetters cc.x).length
    have h0 : addrSplitIdx 0 ('$' :: (dispLetters cc.x ++ cr.str))
        = addrSplitIdx 1 (dispLetters cc.x ++ cr.str) := by
      simp [addrSplitIdx]
    rw [h0, addrSplitIdx_letters (dispLetters cc.x) (dispLetters_mem cc.x) 1 cr.str]
    rw [hrd, addrSplitIdx_at_row _ (by omega) rc rrest hrc]
    simp
    omega

/-- `Address::from_str` inverts the canonical cell rendering. -/
theorem addrFromStr_canon (cc : CanonCol) (cr : CanonRow) (h : cr.ok) :
    Address.from_str (cc.str ++ cr.str) = .ok { column := cc.val, row := cr.val } := by
  have hsplit := addrSplitIdx_canon cc cr
  have hpos : cc.str.length ≠ 0 := by
    have := List.length_pos.mpr cc.str_ne_nil
    omega
  have hcol : Column.from_str cc.str = .ok cc.val := colFromStr_canon cc.absolute cc.x
  have hrow : Row.from_str cr.str = .ok cr.val := rowFromStr_canon cr.absolute cr.y h
  unfold Address.from_str
  rw [hsplit, if_neg hpos, List.take_left, List.drop_left, hcol, hrow]
  rfl


/-- A canonical column token passes the letter/`$` class check. -/
theorem colTok_all_alpha (c : CanonCol) :
    (c.str.all fun ch => ch == '$' || ch.isAlpha) = true :=
  List.all_eq_true.mpr fun ch hch => by
    rcases canonCol_str_chars c ch hch with h | h
    · simp [h]
    · simp [mem_ALPHA_isAlpha ch h]

/-- A canonical row token passes the digit/`$` class check. -/
theorem rowTok_all_digit (r : CanonRow) :
    (r.str.all fun ch => ch == '$' || ch.isDigit) = true :=
  List.all_eq_true.mpr fun ch hch => by
    rcases canonRow_str_chars r ch hch with h | h
    · simp [h]
    · simp [mem_DIGITS_isDigit ch h]

/-- A canonical column token contains a letter, so it fails the digit/`$`
class check. -/
theorem colTok_not_all_digit (c : CanonCol) :
    (c.str.all fun ch => ch == '$' || ch.isDigit) = false := by
  obtain ⟨ch, rest, hd⟩ : ∃ ch rest, dispLetters c.x = ch :: rest := by
    cases hd : dispLetters c.x with
    | nil => exact absurd hd (dispLetters_ne_nil c.x)
    | cons ch rest => exact ⟨ch, rest, rfl⟩
  have hmem : ch ∈ c.str := by
    unfold CanonCol.str
    rw [hd]
    simp
  have hch : ch ∈ ALPHA := dispLetters_mem c.x ch (by rw [hd]; simp)
  refine all_false_of_mem hmem ?_
  simp [mem_ALPHA_ne_dollar ch hch, mem_ALPHA_not_digit ch hch]

/-- A canonical cell string (column token then row token) fails the
digit/`$` class check. -/
theorem cellTok_not_all_digit (c : CanonCol) (r : CanonRow) :
    ((c.str ++ r.str).all fun ch => ch == '$' || ch.isDigit) = false := by
  obtain ⟨ch, rest, hd⟩ : ∃ ch rest, dispLetters c.x = ch :: rest := by
    cases hd : dispLetters c.x with
    | nil => exact absurd hd (dispLetters_ne_nil c.x)
    | cons ch rest => exact ⟨ch, rest, rfl⟩
  have hmem : ch ∈ c.str ++ r.str := by
    apply List.mem_append_left
    unfold CanonCol.str
    rw [hd]
    simp
  have hch : ch ∈ ALPHA := dispLetters_mem c.x ch (by rw [hd]; simp)
  refine all_false_of_mem hmem ?_
  simp [mem_ALPHA_ne_dollar ch hch, mem_ALPHA_not_digit ch hch]

/-- A canonical cell string contains a digit, so it fails the letter/`$`
class check. -/
theorem cellTok_not_all_alpha (c : CanonCol) (r : CanonRow) :
    ((c.str ++ r.str).all fun ch => ch == '$' || ch.isAlpha) = false := by
  obtain ⟨ch, rest, hd⟩ : ∃ ch rest, natToStr (r.y + 1) = ch :: rest := by
    cases hd : natToStr (r.y + 1) with
    | nil => exact absurd hd (natToStr_ne_nil (r.y + 1))
    | cons ch rest => exact ⟨ch, rest, rfl⟩
  have hmem : ch ∈ c.str ++ r.str := by
    apply List.mem_append_right
    unfold CanonRow.str
    rw [hd]
    simp
  have hch : ch ∈ DIGITS := natToStr_mem (r.y + 1) ch (by rw [hd]; simp)
  refine all_false_of_mem hmem ?_
  simp [mem_DIGITS_ne_dollar ch hch, mem_DIGITS_not_alpha ch hch]

/-- `parse_str` parses every canonical segment to its denoted reference. -/
theorem parse_str_canon (s : CanonSeg) (h : s.ok) : parse_str s.str = .ok s.val := by
  cases s with
  | cell cc cr =>
    obtain ⟨-, hr⟩ := h
    have hnc : ':' ∉ (CanonSeg.cell cc cr).str := by
      intro hm
      unfold CanonSeg.str at hm
      rcases List.mem_append.mp hm with hmm | hmm
      · exact canonCol_no_colon cc hmm
      · exact canonRow_no_colon cr hmm
    unfold parse_str CanonSeg.str
    unfold CanonSeg.str at hnc
    rw [splitOnce_eq_none ':' _ hnc]
    rw [addrFromStr_canon cc cr hr]
    rfl
  | cellRange c1 r1 c2 r2 =>
    obtain ⟨-, hr1, -, hr2⟩ := h
    have hnc : ':' ∉ c1.str ++ r1.str := by
      intro hm
      rcases List.mem_append.mp hm with hmm | hmm
      · exact canonCol_no_colon c1 hmm
      · exact canonRow_no_colon r1 hmm
    have ha1 := addrFromStr_canon c1 r1 hr1
    have ha2 := addrFromStr_canon c2 r2 hr2
    unfold parse_str CanonSeg.str
    rw [splitOnce_append ':' _ _ hnc]
    simp [cellTok_not_all_digit c1 r1, cellTok_not_all_alpha c1 r1, ha1, ha2,
      CanonSeg.val, bind, Except.bind, pure, Except.pure]
  | colRange c1 c2 =>
    have hnc : ':' ∉ c1.str := canonCol_no_colon c1
    have hc1 : Column.from_str c1.str = .ok c1.val := colFromStr_canon c1.absolute c1.x
    have hc2 : Column.from_str c2.str = .ok c2.val := colFromStr_canon c2.absolute c2.x
    unfold parse_str CanonSeg.str
    rw [splitOnce_append ':' _ _ hnc]
    simp [colTok_not_all_digit c1, colTok_all_alpha c1, colTok_all_alpha c2,
      hc1, hc2, CanonSeg.val, bind, Except.bind, pure, Except.pure]
  | rowRange r1 r2 =>
    obtain ⟨hr1, hr2⟩ := h
    have hnc : ':' ∉ r1.str := canonRow_no_colon r1
    have hw1 : Row.from_str r1.str = .ok r1.val := rowFromStr_canon r1.absolute r1.y hr1
    have hw2 : Row.from_str r2.str = .ok r2.val := rowFromStr_canon r2.absolute r2.y hr2
    unfold parse_str CanonSeg.str
    rw [splitOnce_append ':' _ _ hnc]
    simp [rowTok_all_digit r1, rowTok_all_digit r2, hw1, hw2, CanonSeg.val,
      bind, Except.bind, pure, Except.pure]

/-- The display renders every canonical value back to its canonical text. -/
theorem display_canon (s : CanonSeg) : RangeOrCell.display s.val = s.str := by
  cases s <;>
    simp [CanonSeg.val, CanonSeg.str, RangeOrCell.display, Address.display,
      Column.display, Row.display, CanonCol.val, CanonRow.val, CanonCol.str,
      CanonRow.str, List.append_assoc]

/-- Claim C4 (amended): the parse/format round-trip `format(parse(s)) = s`
holds for every canonical single-segment reference string (upper-case
letters, no leading zeros, optional `$` markers, where the indices lie in
the machine range of `CanonSeg.ok`).  It fails for comma-separated lists:
the grammar's separator is a bare `,` while formatting joins members with
`", "` (see the counterexample). -/
theorem C4_roundtrip_canonical_segment (s : CanonSeg) (h : s.ok) :
    RangeOrCell.from_str s.str = .ok s.val ∧ RangeOrCell.display s.val = s.str := by
  constructor
  · unfold RangeOrCell.from_str
    rw [splitOn_eq_single ',' s.str s.no_comma]
    simp only [List.length_singleton, List.head?_cons]
    rw [if_neg (by norm_num)]
    exact parse_str_canon s h
  · exact display_canon s

/-- Witness for C4: the canonical cell string `A1` round-trips. -/
theorem C4_roundtrip_canonical_segment_witness :
    RangeOrCell.from_str ['A', '1'] = .ok (.Cell (Address.new 0 0))
      ∧ RangeOrCell.display (.Cell (Address.new 0 0)) = ['A', '1'] := by
  have h := C4_roundtrip_canonical_segment
    (.cell { absolute := false, x := 0 } { absolute := false, y := 0 })
    ⟨by norm_num [CanonCol.ok], by norm_num [CanonRow.ok, USIZE]⟩
  simpa [CanonSeg.str, CanonCol.str, CanonRow.str, CanonSeg.val, CanonCol.val,
    CanonRow.val, dispLetters, natToStr, decDigitsRev, alphaAt, digitAt, ALPHA,
    DIGITS, Address.new, Column.new, Row.new] using h


/-! ### Enumeration (src/range_or_cell/iterator.rs) -/

/-- `HorizontalDirection`. -/
inductive HorizontalDirection where
  | Left
  | Right
deriving DecidableEq

/-- `VerticalDirection`. -/
inductive VerticalDirection where
  | Down
  | Up
deriving DecidableEq

mutual
/-- `RangeOrCellIterator`.  The Rust `end` field is named `stop` here
(`end` is a Lean keyword), and the boxed `Option<Box<RangeOrCellIterator>>`
of the `NonContiguous` variant is the mutually defined `OptIter`, keeping
recursion structural. -/
inductive RangeOrCellIterator where
  | Cell (address : Option Address)
  | ColumnRange (current : Option Column) (horizontal_direction : HorizontalDirection)
      (stop : Column)
  | NonContiguous (it : OptIter) (range_or_cells : ROCList) (i : Nat)
  | Range (current : Option Address) (stop : Address)
      (horizontal_direction : HorizontalDirection) (start : Address)
      (vertical_direction : VerticalDirection)
  | RowRange (current : Option Row) (vertical_direction : VerticalDirection) (stop : Row)

/-- `Option<Box<RangeOrCellIterator>>`. -/
inductive OptIter where
  | none
  | some (it : RangeOrCellIterator)
end

/-- `horizontal_direction(a, b)`: `Right` iff `a < b` (on `x`). -/
def horizontal_direction (a b : Column) : HorizontalDirection :=
  if a.x < b.x then .Right else .Left

/-- `vertical_direction(a, b)`: `Down` iff `a < b` (on `y`). -/
def vertical_direction (a b : Row) : VerticalDirection :=
  if a.y < b.y then .Down else .Up

/-- `RangeOrCell::iter` (src/range_or_cell/iterator.rs). -/
def RangeOrCell.iter : RangeOrCell → RangeOrCellIterator
  | .Cell a => .Cell (some a)
  | .ColumnRange f t => .ColumnRange (some f) (horizontal_direction f t) t
  | .NonContiguous l => .NonContiguous .none l 0
  | .Range f t =>
      .Range (some f) t (horizontal_direction f.column t.column) f
        (vertical_direction f.row t.row)
  | .RowRange f t => .RowRange (some f) (vertical_direction f t) t

/-- `range_or_cells` dropped to position `i` (so `roclDrop l i` starts with
`range_or_cells.get(i)`). -/
def roclDrop : ROCList → Nat → ROCList
  | l, 0 => l
  | .nil, _ + 1 => .nil
  | .cons _ rest, i + 1 => roclDrop rest i

mutual
/-- `r.iter()` fused with its first `next()` call: exactly what the
`NonContiguous` arm of `next` does with `range_or_cells.get(i)`
(`let mut r_iter = r.iter(); let next_value = r_iter.next();`), returning
the first value and the iterator state after it. -/
def firstEmit : RangeOrCell → Option (RangeOrCell × RangeOrCellIterator)
  | .Cell a => some (.Cell a, .Cell Option.none)
  | .ColumnRange f t =>
    let hd := horizontal_direction f t
    let c2 := if Column.rustEq f t then Option.none
      else if hd = .Right then Option.some (f.shift_right 1)
      else Option.some (f.shift_left 1)
    some (.ColumnRange f f, .ColumnRange c2 hd t)
  | .NonContiguous l =>
    match ncFirst l with
    | some (v, ri2) => some (v, .NonContiguous (.some ri2) l 1)
    | none => none
  | .Range f t =>
    let hd := horizontal_direction f.column t.column
    let vd := vertical_direction f.row t.row
    let c2 :=
      if Address.rustEq f t then Option.none
      else if Column.rustEq f.column t.column then
        Option.some ((if vd = .Up then f.shift_up 1 else f.shift_down 1).with_x f.column.x)
      else Option.some (if hd = .Left then f.shift_left 1 else f.shift_right 1)
    some (.Cell f, .Range c2 t hd f vd)
  | .RowRange f t =>
    let vd := vertical_direction f t
    let c2 := if Row.rustEq f t then Option.none
      else if vd = .Down then Option.some (f.shift_down 1)
      else Option.some (f.shift_up 1)
    some (.RowRange f f, .RowRange c2 vd t)

/-- `firstEmit` of the head of a (dropped) list, `none` past the end. -/
def ncFirst : ROCList → Option (RangeOrCell × RangeOrCellIterator)
  | .nil => none
  | .cons h _ => firstEmit h
end

/-- The `range_or_cells.get(i)` branch of the `NonContiguous` arm of
`next`: fetch member `i`, build its iterator, take its first value, save
the advanced member iterator and `i + 1`.  When the member's very first
`next()` is `None` the Rust code also returns `None` (ending any `collect`
or `for` loop), so the saved state no longer matters and we return
`none`. -/
def ncAdvance (l : ROCList) (i : Nat) : Option (RangeOrCell × RangeOrCellIterator) :=
  match ncFirst (roclDrop l i) with
  | some (v, ri2) => some (v, .NonContiguous (.some ri2) l (i + 1))
  | none => none

/-- `impl Iterator for RangeOrCellIterator`, `fn next` — as a pure step
function from a state to an emitted value and the successor state. -/
def next : RangeOrCellIterator → Option (RangeOrCell × RangeOrCellIterator)
  | .Cell Option.none => none
  | .Cell (Option.some a) => some (.Cell a, .Cell Option.none)
  | .ColumnRange Option.none _ _ => none
  | .ColumnRange (Option.some c) hd stop =>
    let c2 := if Column.rustEq c stop then Option.none
      else if hd = .Right then Option.some (c.shift_right 1)
      else Option.some (c.shift_left 1)
    some (.ColumnRange c c, .ColumnRange c2 hd stop)
  | .NonContiguous (.some inner) l i =>
    match next inner with
    | some (v, inner2) => some (v, .NonContiguous (.some inner2) l i)
    | none => ncAdvance l i
  | .NonContiguous .none l i => ncAdvance l i
  | .Range Option.none _ _ _ _ => none
  | .Range (Option.some c) stop hd start vd =>
    let c2 :=
      if Address.rustEq c stop then Option.none
      else if Column.rustEq c.column stop.column then
        Option.some ((if vd = .Up then c.shift_up 1 else c.shift_down 1).with_x start.column.x)
      else Option.some (if hd = .Left then c.shift_left 1 else c.shift_right 1)
    some (.Cell c, .Range c2 stop hd start vd)
  | .RowRange Option.none _ _ => none
  | .RowRange (Option.some c) vd stop =>
    let c2 := if Row.rustEq c stop then Option.none
      else if vd = .Down then Option.some (c.shift_down 1)
      else Option.some (c.shift_up 1)
    some (.RowRange c c, .RowRange c2 vd stop)

/-- Fidelity bridge: `firstEmit r` is exactly `r.iter()` followed by one
`next()`. -/
theorem next_iter (r : RangeOrCell) : next (RangeOrCell.iter r) = firstEmit r := by
  cases r with
  | NonContiguous l =>
    show ncAdvance l 0 = firstEmit (.NonContiguous l)
    have hdrop : roclDrop l 0 = l := by cases l <;> rfl
    unfold ncAdvance firstEmit
    rw [hdrop]
  | Cell a => rfl
  | ColumnRange f t => rfl
  | Range f t => rfl
  | RowRange f t => rfl

/-- Run the iterator for at most `fuel` steps (stopping at the first
`none`, like `collect` does), returning the emitted values and the final
state. -/
def collectFuel : Nat → RangeOrCellIterator → List RangeOrCell × RangeOrCellIterator
  | 0, st => ([], st)
  | fuel + 1, st =>
    match next st with
    | none => ([], st)
    | some (v, st2) =>
      let p := collectFuel fuel st2
      (v :: p.1, p.2)

/-- `|a - b|` on `Nat`. -/
def dist (a b : Nat) : Nat := (a - b) + (b - a)

mutual
/-- The number of items a reference's iterator emits (its member count for
a union, assuming no empty nested union cuts the sequence short). -/
def em : RangeOrCell → Nat
  | .Cell _ => 1
  | .ColumnRange f t => dist f.x t.x + 1
  | .NonContiguous l => emList l
  | .Range f t => (dist f.row.y t.row.y + 1) * (dist f.column.x t.column.x + 1)
  | .RowRange f t => dist f.y t.y + 1

def emList : ROCList → Nat
  | .nil => 0
  | .cons h rest => em h + emList rest
end

/-- Remaining emissions of the members from position `i` on. -/
def emDrop (l : ROCList) (i : Nat) : Nat := emList (roclDrop l i)

mutual
/-- The number of steps before the iterator state is exhausted. -/
def M : RangeOrCellIterator → Nat
  | .Cell Option.none => 0
  | .Cell (Option.some _) => 1
  | .ColumnRange Option.none _ _ => 0
  | .ColumnRange (Option.some c) _ stop => dist c.x stop.x + 1
  | .NonContiguous it l i => MOpt it + emDrop l i
  | .Range Option.none _ _ _ _ => 0
  | .Range (Option.some c) stop _ start _ =>
      dist c.row.y stop.row.y * (dist start.column.x stop.column.x + 1)
        + dist c.column.x stop.column.x + 1
  | .RowRange Option.none _ _ => 0
  | .RowRange (Option.some c) _ stop => dist c.y stop.y + 1

def MOpt : OptIter → Nat
  | .none => 0
  | .some inner => M inner
end

/-- The lazy enumeration of a reference: run the iterator from `iter` with
exactly its step count as fuel (theorems below show any larger fuel gives
the same list, i.e. the sequence is finite). -/
def iterate (r : RangeOrCell) : List RangeOrCell :=
  (collectFuel (M (RangeOrCell.iter r)) (RangeOrCell.iter r)).1

/-- Claim C7: the bounded range (0,0)→(2,2) (`A1:C3`) enumerates exactly
the nine cells in row-major order `A1,B1,C1,A2,B2,C2,A3,B3,C3`, and the
corner-swapped range (2,2)→(0,0) enumerates the same nine cells in exactly
the reverse order. -/
theorem C7_range_enumeration_row_major :
    iterate (.Range (Address.new 0 0) (Address.new 2 2))
        = [.Cell (Address.new 0 0), .Cell (Address.new 1 0), .Cell (Address.new 2 0),
           .Cell (Address.new 0 1), .Cell (Address.new 1 1), .Cell (Address.new 2 1),
           .Cell (Address.new 0 2), .Cell (Address.new 1 2), .Cell (Address.new 2 2)]
      ∧ iterate (.Range (Address.new 2 2) (Address.new 0 0))
          = ([.Cell (Address.new 0 0), .Cell (Address.new 1 0), .Cell (Address.new 2 0),
              .Cell (Address.new 0 1), .Cell (Address.new 1 1), .Cell (Address.new 2 1),
              .Cell (Address.new 0 2), .Cell (Address.new 1 2),
              .Cell (Address.new 2 2)] : List RangeOrCell).reverse := by
  constructor <;> rfl


mutual
/-- `usize`-range invariant of a reference's coordinates (always true of
actual Rust values; needed because the model's `Nat` indices are
unbounded). -/
def SrcWF : RangeOrCell → Prop
  | .Cell a => a.column.x < USIZE ∧ a.row.y < USIZE
  | .ColumnRange f t => f.x < USIZE ∧ t.x < USIZE
  | .NonContiguous l => SrcWFList l
  | .Range f t => f.column.x < USIZE ∧ f.row.y < USIZE ∧ t.column.x < USIZE ∧ t.row.y < USIZE
  | .RowRange f t => f.y < USIZE ∧ t.y < USIZE

def SrcWFList : ROCList → Prop
  | .nil => True
  | .cons h rest => SrcWF h ∧ SrcWFList rest
end

mutual
/-- Invariant of reachable iterator states: the cursor lies between the
start and the stop in the direction of travel, and the stop is inside
`usize` when the cursor moves towards larger indices. -/
def IterWF : RangeOrCellIterator → Prop
  | .Cell _ => True
  | .ColumnRange Option.none _ _ => True
  | .ColumnRange (Option.some c) hd stop =>
      (hd = .Right → c.x ≤ stop.x ∧ stop.x < USIZE) ∧ (hd = .Left → stop.x ≤ c.x)
  | .NonContiguous it l _ => IterWFOpt it ∧ SrcWFList l
  | .Range Option.none _ _ _ _ => True
  | .Range (Option.some c) stop hd start vd =>
      (hd = .Right →
        start.column.x ≤ c.column.x ∧ c.column.x ≤ stop.column.x ∧ stop.column.x < USIZE) ∧
      (hd = .Left → stop.column.x ≤ c.column.x ∧ c.column.x ≤ start.column.x) ∧
      (vd = .Down → c.row.y ≤ stop.row.y ∧ stop.row.y < USIZE) ∧
      (vd = .Up → stop.row.y ≤ c.row.y)
  | .RowRange Option.none _ _ => True
  | .RowRange (Option.some c) vd stop =>
      (vd = .Down → c.y ≤ stop.y ∧ stop.y < USIZE) ∧ (vd = .Up → stop.y ≤ c.y)

def IterWFOpt : OptIter → Prop
  | .none => True
  | .some inner => IterWF inner
end

/-- Is the value a `Cell` variant? -/
def isCellV : RangeOrCell → Bool
  | .Cell _ => true
  | _ => false

/-- Is the value a degenerate single-column `ColumnRange`? -/
def isDegenCol : RangeOrCell → Bool
  | .ColumnRange f t => f.x == t.x
  | _ => false

/-- Is the value a degenerate single-row `RowRange`? -/
def isDegenRow : RangeOrCell → Bool
  | .RowRange f t => f.y == t.y
  | _ => false

/-- The shapes an iterator can ever emit. -/
def atomOK (v : RangeOrCell) : Bool := isCellV v || isDegenCol v || isDegenRow v

/-- The shape of the values a given iterator state emits, determined by
its variant: cells from `Cell` and `Range` iterators, degenerate column
ranges from `ColumnRange`, degenerate row ranges from `RowRange`, any of
those from `NonContiguous`. -/
def emitShape : RangeOrCellIterator → RangeOrCell → Bool
  | .Cell _, v => isCellV v
  | .ColumnRange _ _ _, v => isDegenCol v
  | .NonContiguous _ _ _, v => atomOK v
  | .Range _ _ _ _ _, v => isCellV v
  | .RowRange _ _ _, v => isDegenRow v

theorem emitShape_atom (st : RangeOrCellIterator) (v : RangeOrCell)
    (h : emitShape st v = true) : atomOK v = true := by
  cases st <;> simp only [emitShape] at h <;> simp [atomOK, h] <;>
    simpa [atomOK] using h

/-- Every reference's emission count equals the step count of its fresh
iterator. -/
theorem M_iter (r : RangeOrCell) : M (RangeOrCell.iter r) = em r := by
  cases r with
  | Cell a => rfl
  | ColumnRange f t => rfl
  | NonContiguous l =>
    have hdrop : roclDrop l 0 = l := by cases l <;> rfl
    simp [RangeOrCell.iter, M, MOpt, emDrop, hdrop, em]
  | Range f t =>
    simp [RangeOrCell.iter, M, em]
    ring
  | RowRange f t => rfl

/-- A fresh iterator of a `usize`-wellformed reference is wellformed. -/
theorem iterWF_init (r : RangeOrCell) (h : SrcWF r) : IterWF (RangeOrCell.iter r) := by
  cases r with
  | Cell a => trivial
  | ColumnRange f t =>
    obtain ⟨h1, h2⟩ := h
    by_cases hlt : f.x < t.x <;>
      simp [RangeOrCell.iter, IterWF, horizontal_direction, hlt] <;> omega
  | NonContiguous l => exact ⟨trivial, h⟩
  | Range f t =>
    obtain ⟨h1, h2, h3, h4⟩ := h
    by_cases hcol : f.column.x < t.column.x <;>
      by_cases hrow : f.row.y < t.row.y <;>
        simp [RangeOrCell.iter, IterWF, horizontal_direction, vertical_direction,
          hcol, hrow] <;> omega
  | RowRange f t =>
    obtain ⟨h1, h2⟩ := h
    by_cases hlt : f.y < t.y <;>
      simp [RangeOrCell.iter, IterWF, vertical_direction, hlt] <;> omega

/-- Is the state one of the four non-union iterator variants? -/
def baseSt : RangeOrCellIterator → Bool
  | .NonContiguous _ _ _ => false
  | _ => true


theorem satAdd_lt (a n : Nat) (h : a + n < USIZE) : satAdd a n = a + n := by
  unfold satAdd USIZE at *
  omega

theorem colRustEq_iff (a b : Column) : Column.rustEq a b = true ↔ a.x = b.x := by
  simp [Column.rustEq]

theorem rowRustEq_iff (a b : Row) : Row.rustEq a b = true ↔ a.y = b.y := by
  simp [Row.rustEq]

theorem addrRustEq_iff (a b : Address) :
    Address.rustEq a b = true ↔ a.column.x = b.column.x ∧ a.row.y = b.row.y := by
  simp [Address.rustEq, Column.rustEq, Row.rustEq]

theorem Column.shift_right_one (c : Column) (h : c.x + 1 < USIZE) :
    Column.shift_right c 1 = { absolute := c.absolute, x := c.x + 1 } := by
  cases c
  simp [Column.shift_right, satAdd_lt _ _ h]

theorem Row.shift_down_one (r : Row) (h : r.y + 1 < USIZE) :
    Row.shift_down r 1 = { absolute := r.absolute, y := r.y + 1 } := by
  cases r
  simp [Row.shift_down, satAdd_lt _ _ h]

theorem row_step_count (dr K : Nat) (h : 0 < dr) :
    (dr - 1) * (K + 1) + K + 1 + 1 = dr * (K + 1) + 1 := by
  obtain ⟨e, rfl⟩ : ∃ e, dr = e + 1 := ⟨dr - 1, by omega⟩
  simp [Nat.succ_mul]
  ring

/-- One step of a non-union iterator: it halts exactly when its step count
is zero, and otherwise emits a value of the variant's shape and moves to a
wellformed state of the same variant with step count one less. -/
theorem next_base_spec (st : RangeOrCellIterator) (hb : baseSt st = true)
    (h : IterWF st) :
    (next st = none ↔ M st = 0)
      ∧ ∀ v st2, next st = some (v, st2) →
          IterWF st2 ∧ M st2 + 1 = M st ∧ emitShape st v = true
            ∧ (∀ w, emitShape st2 w = emitShape st w) ∧ baseSt st2 = true := by
  cases st with
  | NonContiguous it l i => exact absurd hb (by simp [baseSt])
  | Cell oa =>
    cases oa with
    | none =>
      refine ⟨by simp [next, M], ?_⟩
      intro v st2 hsome
      simp [next] at hsome
    | some a =>
      refine ⟨by simp [next, M], ?_⟩
      intro v st2 hsome
      have hnext : next (.Cell (Option.some a)) = some (.Cell a, .Cell Option.none) := rfl
      rw [hnext] at hsome
      simp only [Option.some.injEq, Prod.mk.injEq] at hsome
      obtain ⟨hv, hst2⟩ := hsome
      subst hv
      subst hst2
      exact ⟨trivial, rfl, rfl, fun w => rfl, rfl⟩
  | ColumnRange oc hd stop =>
    cases oc with
    | none =>
      refine ⟨by simp [next, M], ?_⟩
      intro v st2 hsome
      simp [next] at hsome
    | some c =>
      refine ⟨⟨by intro hcontra; simp [next] at hcontra, by intro hM; simp [M] at hM⟩, ?_⟩
      intro v st2 hsome
      have hnext : next (.ColumnRange (Option.some c) hd stop)
          = some (.ColumnRange c c,
              .ColumnRange (if Column.rustEq c stop then Option.none
                else if hd = .Right then Option.some (c.shift_right 1)
                else Option.some (c.shift_left 1)) hd stop) := rfl
      rw [hnext] at hsome
      simp only [Option.some.injEq, Prod.mk.injEq] at hsome
      obtain ⟨hv, hst2⟩ := hsome
      subst hv
      subst hst2
      by_cases heq : c.x = stop.x
      · have heqb : Column.rustEq c stop = true := by simp [Column.rustEq, heq]
        have hc2 : (if Column.rustEq c stop then Option.none
            else if hd = .Right then Option.some (c.shift_right 1)
            else Option.some (c.shift_left 1)) = (Option.none : Option Column) := by
          rw [heqb]
          simp
        rw [hc2]
        refine ⟨trivial, ?_, by simp [emitShape, isDegenCol], fun w => rfl, rfl⟩
        simp [M, dist] <;> omega
      · have heqb : Column.rustEq c stop = false := by simp [Column.rustEq, heq]
        cases hd with
        | Right =>
          obtain ⟨hle, hub⟩ := h.1 rfl
          have hlt : c.x < stop.x := by omega
          have hsh := Column.shift_right_one c (by omega)
          have hc2 : (if Column.rustEq c stop then Option.none
              else if HorizontalDirection.Right = HorizontalDirection.Right
                then Option.some (c.shift_right 1)
              else Option.some (c.shift_left 1))
              = Option.some { absolute := c.absolute, x := c.x + 1 } := by
            rw [heqb, hsh]
            simp
          rw [hc2]
          refine ⟨?_, ?_, by simp [emitShape, isDegenCol], fun w => rfl, rfl⟩
          · exact ⟨fun hhd => by simp <;> omega, fun hhd => absurd hhd (by simp)⟩
          · simp [M, dist] <;> omega
        | Left =>
          have hge := h.2 rfl
          have hlt : stop.x < c.x := by omega
          have hsh := Column.shift_left_eq c 1
          have hc2 : (if Column.rustEq c stop then Option.none
              else if HorizontalDirection.Left = HorizontalDirection.Right
                then Option.some (c.shift_right 1)
              else Option.some (c.shift_left 1))
              = Option.some { absolute := c.absolute, x := c.x - 1 } := by
            rw [heqb, hsh]
            simp
          rw [hc2]
          refine ⟨?_, ?_, by simp [emitShape, isDegenCol], fun w => rfl, rfl⟩
          · exact ⟨fun hhd => absurd hhd (by simp), fun hhd => by simp <;> omega⟩
          · simp [M, dist] <;> omega
  | RowRange oc vd stop =>
    cases oc with
    | none =>
      refine ⟨by simp [next, M], ?_⟩
      intro v st2 hsome
      simp [next] at hsome
    | some c =>
      refine ⟨⟨by intro hcontra; simp [next] at hcontra, by intro hM; simp [M] at hM⟩, ?_⟩
      intro v st2 hsome
      have hnext : next (.RowRange (Option.some c) vd stop)
          = some (.RowRange c c,
              .RowRange (if Row.rustEq c stop then Option.none
                else if vd = .Down then Option.some (c.shift_down 1)
                else Option.some (c.shift_up 1)) vd stop) := rfl
      rw [hnext] at hsome
      simp only [Option.some.injEq, Prod.mk.injEq] at hsome
      obtain ⟨hv, hst2⟩ := hsome
      subst hv
      subst hst2
      by_cases heq : c.y = stop.y
      · have heqb : Row.rustEq c stop = true := by simp [Row.rustEq, heq]
        have hc2 : (if Row.rustEq c stop then Option.none
            else if vd = .Down then Option.some (c.shift_down 1)
            else Option.some (c.shift_up 1)) = (Option.none : Option Row) := by
          rw [heqb]
          simp
        rw [hc2]
        refine ⟨trivial, ?_, by simp [emitShape, isDegenRow], fun w => rfl, rfl⟩
        simp [M, dist] <;> omega
      · have heqb : Row.rustEq c stop = false := by simp [Row.rustEq, heq]
        cases vd with
        | Down =>
          obtain ⟨hle, hub⟩ := h.1 rfl
          have hlt : c.y < stop.y := by omega
          have hsh := Row.shift_down_one c (by omega)
          have hc2 : (if Row.rustEq c stop then Option.none
              else if VerticalDirection.Down = VerticalDirection.Down
                then Option.some (c.shift_down 1)
              else Option.some (c.shift_up 1))
              = Option.some { absolute := c.absolute, y := c.y + 1 } := by
            rw [heqb, hsh]
            simp
          rw [hc2]
          refine ⟨?_, ?_, by simp [emitShape, isDegenRow], fun w => rfl, rfl⟩
          · exact ⟨fun hhd => by simp <;> omega, fun hhd => absurd hhd (by simp)⟩
          · simp [M, dist] <;> omega
        | Up =>
          have hge := h.2 rfl
          have hlt : stop.y < c.y := by omega
          have hsh := Row.shift_up_eq c 1
          have hc2 : (if Row.rustEq c stop then Option.none
              else if VerticalDirection.Up = VerticalDirection.Down
                then Option.some (c.shift_down 1)
              else Option.some (c.shift_up 1))
              = Option.some { absolute := c.absolute, y := c.y - 1 } := by
            rw [heqb, hsh]
            simp
          rw [hc2]
          refine ⟨?_, ?_, by simp [emitShape, isDegenRow], fun w => rfl, rfl⟩
          · exact ⟨fun hhd => absurd hhd (by simp), fun hhd => by simp <;> omega⟩
          · simp [M, dist] <;> omega
  | Range oc stop hd start vd =>
    cases oc with
    | none =>
      refine ⟨by simp [next, M], ?_⟩
      intro v st2 hsome
      simp [next] at hsome
    | some c =>
      refine ⟨⟨by intro hcontra; simp [next] at hcontra, by intro hM; simp [M] at hM⟩, ?_⟩
      intro v st2 hsome
      have hnext : next (.Range (Option.some c) stop hd start vd)
          = some (.Cell c,
              .Range (if Address.rustEq c stop then Option.none
                else if Column.rustEq c.column stop.column then
                  Option.some ((if vd = .Up then c.shift_up 1 else c.shift_down 1).with_x
                    start.column.x)
                else Option.some (if hd = .Left then c.shift_left 1 else c.shift_right 1))
                stop hd start vd) := rfl
      rw [hnext] at hsome
      simp only [Option.some.injEq, Prod.mk.injEq] at hsome
      obtain ⟨hv, hst2⟩ := hsome
      subst hv
      subst hst2
      obtain ⟨hR, hL, hD, hU⟩ := h
      by_cases heq : c.column.x = stop.column.x ∧ c.row.y = stop.row.y
      · have heqb : Address.rustEq c stop = true := by
          simp [Address.rustEq, Column.rustEq, Row.rustEq, heq.1, heq.2]
        have hc2 : (if Address.rustEq c stop then Option.none
            else if Column.rustEq c.column stop.column then
              Option.some ((if vd = .Up then c.shift_up 1 else c.shift_down 1).with_x
                start.column.x)
            else Option.some (if hd = .Left then c.shift_left 1 else c.shift_right 1))
            = (Option.none : Option Address) := by
          rw [heqb]
          simp
        rw [hc2]
        refine ⟨trivial, ?_, by simp [emitShape, isCellV], fun w => rfl, rfl⟩
        simp [M, dist] <;> omega
      · have heqb : Address.rustEq c stop = false := by
          simp only [Address.rustEq, Column.rustEq, Row.rustEq, Bool.and_eq_false_iff]
          by_cases h1 : c.column.x = stop.column.x
          · right
            simp only [beq_eq_false_iff_ne, ne_eq]
            exact fun h2 => heq ⟨h1, h2⟩
          · left
            simp only [beq_eq_false_iff_ne, ne_eq]
            exact h1
        by_cases hcc : c.column.x = stop.column.x
        · have hccb : Column.rustEq c.column stop.column = true := by
            simp [Column.rustEq, hcc]
          have hrne : c.row.y ≠ stop.row.y := fun hr => heq ⟨hcc, hr⟩
          have hc0 : dist c.column.x stop.column.x = 0 := by unfold dist; omega
          cases vd with
          | Up =>
            have hge := hU rfl
            have hlt : stop.row.y < c.row.y := by omega
            have hsh : (c.shift_up 1).with_x start.column.x
                = { column := Column.new start.column.x,
                    row := { absolute := c.row.absolute, y := c.row.y - 1 } } := by
              simp [Address.shift_up, Address.with_x, Row.shift_up_eq]
            have hsub : dist (c.row.y - 1) stop.row.y = dist c.row.y stop.row.y - 1 := by
              unfold dist
              omega
            have hkey := row_step_count (dist c.row.y stop.row.y)
              (dist start.column.x stop.column.x) (by unfold dist; omega)
            have hc2 : (if Address.rustEq c stop then Option.none
                else if Column.rustEq c.column stop.column then
                  Option.some ((if VerticalDirection.Up = .Up
                    then c.shift_up 1 else c.shift_down 1).with_x start.column.x)
                else Option.some (if hd = .Left then c.shift_left 1 else c.shift_right 1))
                = Option.some
                    { column := Column.new start.column.x,
                      row := { absolute := c.row.absolute, y := c.row.y - 1 } } := by
              rw [heqb, hccb]
              simp [hsh]
            rw [hc2]
            refine ⟨?_, ?_, by simp [emitShape, isCellV], fun w => rfl, rfl⟩
            · refine ⟨fun hhd => ?_, fun hhd => ?_, fun hhd => absurd hhd (by simp),
                fun hhd => ?_⟩
              · obtain ⟨ha, hbb, hcb⟩ := hR hhd
                simp [Column.new] <;> omega
              · obtain ⟨ha, hbb⟩ := hL hhd
                simp [Column.new] <;> omega
              · simp <;> omega
            · simp [M, Column.new, hsub, hc0]
              omega
          | Down =>
            have hge := hD rfl
            have hlt : c.row.y < stop.row.y := by omega
            have hub : stop.row.y < USIZE := (hD rfl).2
            have hsh : (c.shift_down 1).with_x start.column.x
                = { column := Column.new start.column.x,
                    row := { absolute := c.row.absolute, y := c.row.y + 1 } } := by
              simp [Address.shift_down, Address.with_x, Row.shift_down_one c.row (by omega)]
            have hsub : dist (c.row.y + 1) stop.row.y = dist c.row.y stop.row.y - 1 := by
              unfold dist
              omega
            have hkey := row_step_count (dist c.row.y stop.row.y)
              (dist start.column.x stop.column.x) (by unfold dist; omega)
            have hc2 : (if Address.rustEq c stop then Option.none
                else if Column.rustEq c.column stop.column then
                  Option.some ((if VerticalDirection.Down = .Up
                    then c.shift_up 1 else c.shift_down 1).with_x start.column.x)
                else Option.some (if hd = .Left then c.shift_left 1 else c.shift_right 1))
                = Option.some
                    { column := Column.new start.column.x,
                      row := { absolute := c.row.absolute, y := c.row.y + 1 } } := by
              rw [heqb, hccb]
              simp [hsh]
            rw [hc2]
            refine ⟨?_, ?_, by simp [emitShape, isCellV], fun w => rfl, rfl⟩
            · refine ⟨fun hhd => ?_, fun hhd => ?_, fun hhd => ?_,
                fun hhd => absurd hhd (by simp)⟩
              · obtain ⟨ha, hbb, hcb⟩ := hR hhd
                simp [Column.new] <;> omega
              · obtain ⟨ha, hbb⟩ := hL hhd
                simp [Column.new] <;> omega
              · simp <;> omega
            · simp [M, Column.new, hsub, hc0]
              omega
        · have hccb : Column.rustEq c.column stop.column = false := by
            simp [Column.rustEq, hcc]
          cases hd with
          | Left =>
            obtain ⟨hge, hle⟩ := hL rfl
            have hlt : stop.column.x < c.column.x := by omega
            have hsh : c.shift_left 1
                = { column := { absolute := c.column.absolute, x := c.column.x - 1 },
                    row := c.row } := by
              simp [Address.shift_left, Column.shift_left_eq]
            have hc2 : (if Address.rustEq c stop then Option.none
                else if Column.rustEq c.column stop.column then
                  Option.some ((if vd = .Up then c.shift_up 1 else c.shift_down 1).with_x
                    start.column.x)
                else Option.some (if HorizontalDirection.Left = .Left
                  then c.shift_left 1 else c.shift_right 1))
                = Option.some
                    { column := { absolute := c.column.absolute, x := c.column.x - 1 },
                      row := c.row } := by
              rw [heqb, hccb]
              simp [hsh]
            rw [hc2]
            refine ⟨?_, ?_, by simp [emitShape, isCellV], fun w => rfl, rfl⟩
            · refine ⟨fun hhd => absurd hhd (by simp), fun hhd => ?_, fun hhd => ?_,
                fun hhd => ?_⟩
              · simp <;> omega
              · obtain ⟨ha, hbb⟩ := hD hhd
                simp <;> omega
              · have ha := hU hhd
                simp <;> omega
            · simp [M, dist] <;> omega
          | Right =>
            obtain ⟨hge, hle, hub⟩ := hR rfl
            have hlt : c.column.x < stop.column.x := by omega
            have hsh : c.shift_right 1
                = { column := { absolute := c.column.absolute, x := c.column.x + 1 },
                    row := c.row } := by
              simp [Address.shift_right, Column.shift_right_one c.column (by omega)]
            have hc2 : (if Address.rustEq c stop then Option.none
                else if Column.rustEq c.column stop.column then
                  Option.some ((if vd = .Up then c.shift_up 1 else c.shift_down 1).with_x
                    start.column.x)
                else Option.some (if HorizontalDirection.Right = .Left
                  then c.shift_left 1 else c.shift_right 1))
                = Option.some
                    { column := { absolute := c.column.absolute, x := c.column.x + 1 },
                      row := c.row } := by
              rw [heqb, hccb]
              simp [hsh]
            rw [hc2]
            refine ⟨?_, ?_, by simp [emitShape, isCellV], fun w => rfl, rfl⟩
            · refine ⟨fun hhd => ?_, fun hhd => absurd hhd (by simp), fun hhd => ?_,
                fun hhd => ?_⟩
              · simp <;> omega
              · obtain ⟨ha, hbb⟩ := hD hhd
                simp <;> omega
              · have ha := hU hhd
                simp <;> omega
            · simp [M, dist] <;> omega

/-- The tail of a member list. -/
def roclTail : ROCList → ROCList
  | .nil => .nil
  | .cons _ rest => rest

theorem roclDrop_succ : ∀ (i : Nat) (l : ROCList),
    roclDrop l (i + 1) = roclTail (roclDrop l i) := by
  intro i
  induction i with
  | zero => intro l; cases l <;> simp [roclDrop, roclTail]
  | succ j IH =>
    intro l
    cases l with
    | nil => simp [roclDrop, roclTail]
    | cons hh rest =>
      simp only [roclDrop]
      exact IH rest

theorem SrcWFList_drop : ∀ (i : Nat) (l : ROCList),
    SrcWFList l → SrcWFList (roclDrop l i) := by
  intro i
  induction i with
  | zero =>
    intro l h
    have hd : roclDrop l 0 = l := by cases l <;> rfl
    rw [hd]
    exact h
  | succ j IH =>
    intro l h
    cases l with
    | nil =>
      simp only [roclDrop]
      exact trivial
    | cons hh rest =>
      simp only [roclDrop]
      exact IH rest h.2

/-- The first emission of a fresh non-union iterator: wellformed successor,
one fewer remaining step than the member count, and an atom shape. -/
theorem firstEmit_base (r : RangeOrCell) (h : SrcWF r)
    (hb : baseSt (RangeOrCell.iter r) = true) :
    ∀ v ri2, firstEmit r = some (v, ri2) →
      IterWF ri2 ∧ M ri2 < em r ∧ atomOK v = true := by
  intro v ri2 hsome
  obtain ⟨hw2, hM2, hsh, hpres, hb2⟩ :=
    (next_base_spec _ hb (iterWF_init _ h)).2 v ri2 ((next_iter _).trans hsome)
  have hMi := M_iter r
  exact ⟨hw2, by omega, emitShape_atom _ v hsh⟩

theorem firstEmit_spec_aux : ∀ n r, sizeOf r < n → SrcWF r →
    ∀ v ri2, firstEmit r = some (v, ri2) →
      IterWF ri2 ∧ M ri2 < em r ∧ atomOK v = true := by
  intro n
  induction n with
  | zero => intro r hlt; omega
  | succ m IH =>
    intro r hlt h v ri2 hsome
    cases r with
    | Cell a => exact firstEmit_base _ h rfl v ri2 hsome
    | ColumnRange f t => exact firstEmit_base _ h rfl v ri2 hsome
    | Range f t => exact firstEmit_base _ h rfl v ri2 hsome
    | RowRange f t => exact firstEmit_base _ h rfl v ri2 hsome
    | NonContiguous l =>
      cases l with
      | nil => simp [firstEmit, ncFirst] at hsome
      | cons hh rest =>
        have hszh : sizeOf hh < m := by simp at hlt; omega
        cases hfe : firstEmit hh with
        | none => simp [firstEmit, ncFirst, hfe] at hsome
        | some p =>
          obtain ⟨v2, ri3⟩ := p
          have hne : firstEmit (.NonContiguous (.cons hh rest))
              = some (v2, .NonContiguous (OptIter.some ri3) (.cons hh rest) 1) := by
            simp [firstEmit, ncFirst, hfe]
          rw [hne] at hsome
          simp only [Option.some.injEq, Prod.mk.injEq] at hsome
          obtain ⟨hv, hst⟩ := hsome
          subst hv
          subst hst
          obtain ⟨hw2, hM2, hat⟩ := IH hh hszh h.1 v2 ri3 hfe
          refine ⟨⟨hw2, h⟩, ?_, hat⟩
          show M ri3 + emDrop (.cons hh rest) 1 < emList (.cons hh rest)
          have hd1 : emDrop (ROCList.cons hh rest) 1 = emList rest := by
            simp [emDrop, roclDrop]
          have hd2 : emList (ROCList.cons hh rest) = em hh + emList rest := by
            simp [emList]
          omega

theorem firstEmit_spec (r : RangeOrCell) (h : SrcWF r) :
    ∀ v ri2, firstEmit r = some (v, ri2) →
      IterWF ri2 ∧ M ri2 < em r ∧ atomOK v = true :=
  firstEmit_spec_aux (sizeOf r + 1) r (by omega) h

/-- The member-advance branch of the union iterator: it stays wellformed,
strictly decreases the remaining-emission count of the members from
position `i`, and emits an atom. -/
theorem ncAdvance_spec (l : ROCList) (i : Nat) (hl : SrcWFList l) :
    ∀ v st2, ncAdvance l i = some (v, st2) →
      IterWF st2 ∧ M st2 < emDrop l i ∧ atomOK v = true
        ∧ ∀ w, emitShape st2 w = atomOK w := by
  intro v st2 hsome
  unfold ncAdvance at hsome
  cases hd : roclDrop l i with
  | nil =>
    rw [hd] at hsome
    simp [ncFirst] at hsome
  | cons hh rest =>
    rw [hd] at hsome
    have hwfd := SrcWFList_drop i l hl
    rw [hd] at hwfd
    cases hfe : firstEmit hh with
    | none =>
      rw [show ncFirst (.cons hh rest) = firstEmit hh from rfl, hfe] at hsome
      simp at hsome
    | some p =>
      obtain ⟨v2, ri2⟩ := p
      rw [show ncFirst (.cons hh rest) = firstEmit hh from rfl, hfe] at hsome
      simp only [Option.some.injEq, Prod.mk.injEq] at hsome
      obtain ⟨hv, hst⟩ := hsome
      subst hv
      subst hst
      obtain ⟨hw2, hM2, hat⟩ := firstEmit_spec hh hwfd.1 v2 ri2 hfe
      refine ⟨⟨hw2, hl⟩, ?_, hat, fun w => rfl⟩
      show M ri2 + emDrop l (i + 1) < emDrop l i
      have hdi : emDrop l i = em hh + emList rest := by
        show emList (roclDrop l i) = _
        rw [hd]
        simp [emList]
      have hdi1 : emDrop l (i + 1) = emList rest := by
        show emList (roclDrop l (i + 1)) = _
        rw [roclDrop_succ, hd]
        simp [roclTail]
      omega

theorem next_spec_aux : ∀ n st, sizeOf st < n → IterWF st →
    ∀ v st2, next st = some (v, st2) →
      IterWF st2 ∧ M st2 < M st ∧ emitShape st v = true
        ∧ ∀ w, emitShape st2 w = emitShape st w := by
  intro n
  induction n with
  | zero => intro st hlt; omega
  | succ m IH =>
    intro st hlt h v st2 hsome
    by_cases hb : baseSt st = true
    · obtain ⟨hw2, hM2, hsh, hpres, hb2⟩ := (next_base_spec st hb h).2 v st2 hsome
      exact ⟨hw2, by omega, hsh, hpres⟩
    · cases st with
      | Cell a => exact absurd rfl hb
      | ColumnRange oc hd stop => exact absurd rfl hb
      | Range oc stop hd start vd => exact absurd rfl hb
      | RowRange oc vd stop => exact absurd rfl hb
      | NonContiguous it l i =>
        have h2 : IterWFOpt it ∧ SrcWFList l := h
        cases it with
        | none =>
          have hne : next (.NonContiguous OptIter.none l i) = ncAdvance l i := rfl
          rw [hne] at hsome
          obtain ⟨hw2, hM2, hat, hpres⟩ := ncAdvance_spec l i h2.2 v st2 hsome
          refine ⟨hw2, ?_, hat, fun w => hpres w⟩
          show M st2 < MOpt OptIter.none + emDrop l i
          have hM0 : MOpt OptIter.none = 0 := rfl
          omega
        | some inner =>
          have hszi : sizeOf inner < m := by simp at hlt; omega
          cases hni : next inner with
          | some p =>
            obtain ⟨v2, inner2⟩ := p
            have hne : next (.NonContiguous (OptIter.some inner) l i)
                = some (v2, .NonContiguous (OptIter.some inner2) l i) := by
              simp [next, hni]
            rw [hne] at hsome
            simp only [Option.some.injEq, Prod.mk.injEq] at hsome
            obtain ⟨hv, hst⟩ := hsome
            subst hv
            subst hst
            obtain ⟨hw2, hM2, hsh, hpres⟩ := IH inner hszi h2.1 v2 inner2 hni
            refine ⟨⟨hw2, h2.2⟩, ?_, emitShape_atom inner v2 hsh, fun w => rfl⟩
            show M inner2 + emDrop l i < M inner + emDrop l i
            omega
          | none =>
            have hne : next (.NonContiguous (OptIter.some inner) l i) = ncAdvance l i := by
              simp [next, hni]
            rw [hne] at hsome
            obtain ⟨hw2, hM2, hat, hpres⟩ := ncAdvance_spec l i h2.2 v st2 hsome
            refine ⟨hw2, ?_, hat, fun w => hpres w⟩
            show M st2 < MOpt (OptIter.some inner) + emDrop l i
            have hMi : MOpt (OptIter.some inner) = M inner := rfl
            omega

/-- One step of any wellformed iterator state: successor wellformed, the
step count strictly decreases, and the emitted value has the state's
shape, which the successor keeps. -/
theorem next_spec (st : RangeOrCellIterator) (h : IterWF st) :
    ∀ v st2, next st = some (v, st2) →
      IterWF st2 ∧ M st2 < M st ∧ emitShape st v = true
        ∧ ∀ w, emitShape st2 w = emitShape st w :=
  next_spec_aux (sizeOf st + 1) st (by omega) h

theorem collectFuel_stop (st : RangeOrCellIterator) (hn : next st = none) :
    ∀ k, collectFuel k st = ([], st) := by
  intro k
  cases k with
  | zero => rfl
  | succ j => simp [collectFuel, hn]

theorem collectFuel_congr_aux :
    ∀ n fuel st, fuel ≤ n → IterWF st → M st ≤ fuel →
      collectFuel fuel st = collectFuel (M st) st := by
  intro n
  induction n with
  | zero =>
    intro fuel st hf h hM
    have hf0 : fuel = 0 := by omega
    have hM0 : M st = 0 := by omega
    rw [hf0, hM0]
  | succ m IH =>
    intro fuel st hf h hM
    cases hn : next st with
    | none => rw [collectFuel_stop st hn, collectFuel_stop st hn]
    | some p =>
      obtain ⟨v, st2⟩ := p
      obtain ⟨hw2, hlt, hsh, hpres⟩ := next_spec st h v st2 hn
      obtain ⟨f2, rfl⟩ : ∃ f2, fuel = f2 + 1 := ⟨fuel - 1, by omega⟩
      obtain ⟨m2, hm2⟩ : ∃ m2, M st = m2 + 1 := ⟨M st - 1, by omega⟩
      have h1 := IH f2 st2 (by omega) hw2 (by omega)
      have h2 := IH m2 st2 (by omega) hw2 (by omega)
      rw [hm2]
      simp [collectFuel, hn, h1.trans h2.symm]

/-- Running the iterator with any fuel at least its step count gives the
same result as running it with exactly the step count: the sequence is
finite and stabilises. -/
theorem collectFuel_congr (fuel : Nat) (st : RangeOrCellIterator) (h : IterWF st)
    (hM : M st ≤ fuel) : collectFuel fuel st = collectFuel (M st) st :=
  collectFuel_congr_aux fuel fuel st (le_refl _) h hM

theorem collect_len_le :
    ∀ fuel st, IterWF st → (collectFuel fuel st).1.length ≤ M st := by
  intro fuel
  induction fuel with
  | zero =>
    intro st h
    simp [collectFuel]
  | succ f IH =>
    intro st h
    cases hn : next st with
    | none => simp [collectFuel, hn]
    | some p =>
      obtain ⟨v, st2⟩ := p
      obtain ⟨hw2, hlt, hsh, hpres⟩ := next_spec st h v st2 hn
      have hrec := IH st2 hw2
      simp [collectFuel, hn]
      omega

theorem collect_len_base :
    ∀ fuel st, baseSt st = true → IterWF st → M st ≤ fuel →
      (collectFuel fuel st).1.length = M st := by
  intro fuel
  induction fuel with
  | zero =>
    intro st hb h hM
    have h0 : M st = 0 := by omega
    simp [collectFuel, h0]
  | succ f IH =>
    intro st hb h hM
    cases hn : next st with
    | none =>
      have h0 : M st = 0 := (next_base_spec st hb h).1.mp hn
      simp [collectFuel, hn, h0]
    | some p =>
      obtain ⟨v, st2⟩ := p
      obtain ⟨hw2, hM2, hsh, hpres, hb2⟩ := (next_base_spec st hb h).2 v st2 hn
      have hrec := IH st2 hb2 hw2 (by omega)
      simp [collectFuel, hn, hrec]
      omega

theorem collect_shape :
    ∀ fuel st, IterWF st → ∀ v, v ∈ (collectFuel fuel st).1 →
      emitShape st v = true := by
  intro fuel
  induction fuel with
  | zero =>
    intro st h v hv
    simp [collectFuel] at hv
  | succ f IH =>
    intro st h v hv
    cases hn : next st with
    | none =>
      rw [collectFuel_stop st hn] at hv
      simp at hv
    | some p =>
      obtain ⟨v0, st2⟩ := p
      obtain ⟨hw2, hlt, hsh, hpres⟩ := next_spec st h v0 st2 hn
      rw [show collectFuel (f + 1) st
          = (v0 :: (collectFuel f st2).1, (collectFuel f st2).2) from by
        simp [collectFuel, hn]] at hv
      simp only [List.mem_cons] at hv
      cases hv with
      | inl he =>
        rw [he]
        exact hsh
      | inr hm =>
        rw [← hpres v]
        exact IH st2 hw2 v hm

/-- Claim C8 (amended).  For every reference with `usize`-range
coordinates, `iterate` is a finite sequence: any fuel at least the
emission count `em` collects exactly `iterate r`.  Every element has the
shape determined by the variant by `emitShape` — a `Cell` for `Cell` and
`Range` references, but a degenerate (single-column) `ColumnRange` for
`ColumnRange` references and a degenerate (single-row) `RowRange` for
`RowRange` references, not the single-cell `Cell` variant the claim
states (see the counterexample); a union emits any of those atoms.  The
length is exactly `em r` (one per covered cell/column/row) for the four
non-union variants, and at most `em r` for a union (an empty nested union
cuts the enumeration short). -/
theorem C8_iterate_finite_shapes (r : RangeOrCell) (h : SrcWF r) :
    (∀ fuel, em r ≤ fuel →
        (collectFuel fuel (RangeOrCell.iter r)).1 = iterate r)
      ∧ (∀ v, v ∈ iterate r → emitShape (RangeOrCell.iter r) v = true)
      ∧ (iterate r).length ≤ em r
      ∧ (baseSt (RangeOrCell.iter r) = true → (iterate r).length = em r) := by
  have hwf := iterWF_init r h
  have hM := M_iter r
  refine ⟨?_, ?_, ?_, ?_⟩
  · intro fuel hf
    have hc := collectFuel_congr fuel (RangeOrCell.iter r) hwf (by omega)
    unfold iterate
    rw [hc]
  · intro v hv
    exact collect_shape _ _ hwf v hv
  · have hle := collect_len_le (M (RangeOrCell.iter r)) (RangeOrCell.iter r) hwf
    unfold iterate
    omega
  · intro hbase
    have hlen := collect_len_base (M (RangeOrCell.iter r)) (RangeOrCell.iter r)
      hbase hwf (le_refl _)
    unfold iterate
    omega

/-- Counterexample to C8 as stated: enumerating the column range `D:G`
yields four degenerate `ColumnRange` values (`RangeOrCellIterator::next`
returns `c.into()`, a `ColumnRange { from: c, to: c }`), none of which is
a single-cell `Cell` variant. -/
theorem C8_counterexample :
    iterate (.ColumnRange { absolute := false, x := 3 } { absolute := false, x := 6 })
        = [.ColumnRange { absolute := false, x := 3 } { absolute := false, x := 3 },
           .ColumnRange { absolute := false, x := 4 } { absolute := false, x := 4 },
           .ColumnRange { absolute := false, x := 5 } { absolute := false, x := 5 },
           .ColumnRange { absolute := false, x := 6 } { absolute := false, x := 6 }]
      ∧ (iterate (.ColumnRange { absolute := false, x := 3 }
            { absolute := false, x := 6 })).all isCellV = false := by
  constructor <;> rfl

/-- Witness for C8: for the column range `D:G`, any fuel of at least its
four members collects exactly `iterate`, and the length is exactly the
member count. -/
theorem C8_iterate_finite_shapes_witness :
    (collectFuel 10 (RangeOrCell.iter
          (.ColumnRange { absolute := false, x := 3 } { absolute := false, x := 6 }))).1
        = iterate (.ColumnRange { absolute := false, x := 3 } { absolute := false, x := 6 })
      ∧ (iterate (.ColumnRange { absolute := false, x := 3 }
            { absolute := false, x := 6 })).length
          = em (.ColumnRange { absolute := false, x := 3 } { absolute := false, x := 6 }) := by
  have h := C8_iterate_finite_shapes
    (.ColumnRange { absolute := false, x := 3 } { absolute := false, x := 6 })
    (by norm_num [SrcWF, USIZE])
  exact ⟨h.1 10 (by norm_num [em, dist]), h.2.2.2 rfl⟩

end A1Notation
